import Mathlib

/-!
# Verification of the heat-equation explorer's numerical core

Shallow embedding of the numerical core of the 1D/2D heat-equation explorer
(files `src/unnamed/part_000`, `src/unnamed/part_001`, `src/2d/app.js`).

Machine floats are modelled by exact rationals (`ℚ`) for the solver, the
steppers and the diagnostics, and by real numbers (`ℝ`) for the
transcendental field generators (`Math.sin` / `Math.exp`).  JavaScript
arrays become `List ℚ` (1D fields) and `List (List ℚ)` (2D fields, row
major: `u[i][j]` is `(u.getD i []).getD j 0`).  Imperative
`new Array(n).fill(v)` followed by boundary overwrites becomes
`(List.replicate n v).set …`; a loop that fills a fresh array becomes
`List.ofFn`.  All call sites in the JavaScript pass equal-length
coefficient arrays to the solver, and the embedding assumes the same.
-/

namespace HeatEq

/-- The degenerate-pivot threshold `1e-15` from `thomasAlgorithm`. -/
def tEps : ℚ := 1 / 10 ^ 15

/-- Zip four lists into rows `(a_i, b_i, c_i, d_i)`; truncates at the
shortest list (call sites always pass equal lengths). -/
def zip4 : List ℚ → List ℚ → List ℚ → List ℚ → List (ℚ × ℚ × ℚ × ℚ)
  | x :: xs, y :: ys, z :: zs, w :: ws => (x, y, z, w) :: zip4 xs ys zs ws
  | _, _, _, _ => []

/-- Forward elimination of `thomasAlgorithm` (the `for (let i = 1; …)` loop
of `src/unnamed/part_000` lines 149–157): carries the previous normalized
coefficients `cp`, `dp` and returns `none` exactly when an effective pivot
`b_i - a_i * cp_{i-1}` falls below `1e-15` in absolute value (the
`console.error` / early-`return d` branch). -/
def thomasSweep : List (ℚ × ℚ × ℚ × ℚ) → ℚ → ℚ → Option (List (ℚ × ℚ))
  | [], _, _ => some []
  | (ai, bi, ci, di) :: rest, cp, dp =>
      let denom := bi - ai * cp
      if |denom| < tEps then none
      else
        let cpi := ci / denom
        let dpi := (di - ai * dp) / denom
        match thomasSweep rest cpi dpi with
        | none => none
        | some l => some ((cpi, dpi) :: l)

/-- Back substitution of `thomasAlgorithm` (lines 160–163):
`x[n-1] = dp[n-1]`, `x[i] = dp[i] - cp[i] * x[i+1]`. -/
def backSub : List (ℚ × ℚ) → List ℚ
  | [] => []
  | (cp, dp) :: rest =>
      match backSub rest with
      | [] => [dp]
      | x :: xs => (dp - cp * x) :: x :: xs

/-- `thomasAlgorithm(a, b, c, d)` of `src/unnamed/part_000` lines 134–166
(identical in `src/unnamed/part_001` lines 70–92 and `src/2d/app.js`
lines 84–108): Thomas algorithm with the degenerate-pivot early return of
the unmodified right-hand side `d`. -/
def thomasAlgorithm (a b c d : List ℚ) : List ℚ :=
  match b, c, d with
  | b0 :: _, c0 :: _, d0 :: _ =>
      if |b0| < tEps then d
      else
        match thomasSweep (zip4 a.tail b.tail c.tail d.tail) (c0 / b0) (d0 / b0) with
        | none => d
        | some l => backSub ((c0 / b0, d0 / b0) :: l)
  | _, _, _ => d

/-- Whether `thomasAlgorithm` takes one of its degenerate-pivot early
returns on this input (true iff the returned vector is the unmodified
right-hand side produced by the safety branches). -/
def thomasDegenerate (a b c d : List ℚ) : Bool :=
  match b, c, d with
  | b0 :: _, c0 :: _, d0 :: _ =>
      if |b0| < tEps then true
      else (thomasSweep (zip4 a.tail b.tail c.tail d.tail) (c0 / b0) (d0 / b0)).isNone
  | _, _, _ => false

/-- The sequence of effective pivots the forward elimination generates when
run to the end (ignoring the threshold): `b_0` followed by each
`b_i - a_i * cp_{i-1}`.  The entries up to and including the first
sub-threshold one coincide with what the guarded loop actually computes. -/
def pivotsAux : List (ℚ × ℚ × ℚ × ℚ) → ℚ → List ℚ
  | [], _ => []
  | (ai, bi, ci, _) :: rest, cp =>
      let denom := bi - ai * cp
      denom :: pivotsAux rest (ci / denom)

/-- The normalized super-diagonal coefficient `cp` carried out of the
forward elimination over `rows`, starting from `cp`. -/
def finalCp : List (ℚ × ℚ × ℚ × ℚ) → ℚ → ℚ
  | [], cp => cp
  | (ai, bi, ci, _) :: rest, cp => finalCp rest (ci / (bi - ai * cp))

/-- All effective pivots of the system `(a, b, c, d)`. -/
def thomasPivots (a b c d : List ℚ) : List ℚ :=
  match b, c, d with
  | b0 :: _, c0 :: _, _ :: _ => b0 :: pivotsAux (zip4 a.tail b.tail c.tail d.tail) (c0 / b0)
  | _, _, _ => []

/-! ## 1D steppers (`src/unnamed/part_000` lines 70–127; the unified file
`src/unnamed/part_001` lines 59–119 is identical code) -/

/-- `forwardEuler(u, r)`: `uNew[0] = uNew[n-1] = 0`, interior
`uNew[i] = u[i] + r*(u[i+1] - 2*u[i] + u[i-1])`. -/
def forwardEuler (u : List ℚ) (r : ℚ) : List ℚ :=
  List.ofFn (n := u.length) fun i =>
    if i.1 = 0 ∨ i.1 = u.length - 1 then 0
    else u.getD i.1 0 + r * (u.getD (i.1 + 1) 0 - 2 * u.getD i.1 0 + u.getD (i.1 - 1) 0)

/-- Sub-diagonal of `backwardEuler`: `new Array(n).fill(-r)` then
`a[n-1] = 0`. -/
def beA (u : List ℚ) (r : ℚ) : List ℚ :=
  (List.replicate u.length (-r)).set (u.length - 1) 0

/-- Main diagonal of `backwardEuler`: `fill(1 + 2r)` then `b[0] = 1`,
`b[n-1] = 1`. -/
def beB (u : List ℚ) (r : ℚ) : List ℚ :=
  ((List.replicate u.length (1 + 2 * r)).set 0 1).set (u.length - 1) 1

/-- Super-diagonal of `backwardEuler`: `fill(-r)` then `c[0] = 0`. -/
def beC (u : List ℚ) (r : ℚ) : List ℚ :=
  (List.replicate u.length (-r)).set 0 0

/-- Right-hand side of `backwardEuler`: `d = [...u]` then `d[0] = 0`,
`d[n-1] = 0`. -/
def beD (u : List ℚ) : List ℚ :=
  (u.set 0 0).set (u.length - 1) 0

/-- `backwardEuler(u, r)` of `src/unnamed/part_000` lines 88–101. -/
def backwardEuler (u : List ℚ) (r : ℚ) : List ℚ :=
  thomasAlgorithm (beA u r) (beB u r) (beC u r) (beD u)

/-- Sub-diagonal of `crankNicolson`: `fill(-r/2)` then `a[n-1] = 0`. -/
def cnA (u : List ℚ) (r : ℚ) : List ℚ :=
  (List.replicate u.length (-(r / 2))).set (u.length - 1) 0

/-- Main diagonal of `crankNicolson`: `fill(1 + r)` then `b[0] = 1`,
`b[n-1] = 1`. -/
def cnB (u : List ℚ) (r : ℚ) : List ℚ :=
  ((List.replicate u.length (1 + r)).set 0 1).set (u.length - 1) 1

/-- Super-diagonal of `crankNicolson`: `fill(-r/2)` then `c[0] = 0`. -/
def cnC (u : List ℚ) (r : ℚ) : List ℚ :=
  (List.replicate u.length (-(r / 2))).set 0 0

/-- Right-hand side of `crankNicolson`: interior
`d[i] = (1-r)*u[i] + (r/2)*(u[i+1] + u[i-1])`, boundary `d[0] = d[n-1] = 0`
(the `new Array(n)` is fully assigned by the loop plus the two boundary
writes). -/
def cnD (u : List ℚ) (r : ℚ) : List ℚ :=
  List.ofFn (n := u.length) fun i =>
    if i.1 = 0 ∨ i.1 = u.length - 1 then 0
    else (1 - r) * u.getD i.1 0 + (r / 2) * (u.getD (i.1 + 1) 0 + u.getD (i.1 - 1) 0)

/-- `crankNicolson(u, r)` of `src/unnamed/part_000` lines 109–127. -/
def crankNicolson (u : List ℚ) (r : ℚ) : List ℚ :=
  thomasAlgorithm (cnA u r) (cnB u r) (cnC u r) (cnD u r)

/-! ## 2D steppers (`src/2d/app.js` lines 110–264 and
`src/unnamed/part_001` lines 167–270)

A 2D field is a row-major `List (List ℚ)`: `u[i][j]` is
`(u.getD i []).getD j 0`.  Every ADI sweep builds the same
boundary-conditioned tridiagonal coefficient arrays inline
(`a = fill(-s); a[n-1] = 0`, `b = fill(v); b[0] = b[n-1] = 1`,
`c = fill(-s); c[0] = 0`); `triA`, `triB`, `triC` name that idiom once. -/

/-- Sub-diagonal built by each sweep: `new Array(n).fill(-s); a[n-1] = 0`. -/
def triA (n : ℕ) (s : ℚ) : List ℚ :=
  (List.replicate n (-s)).set (n - 1) 0

/-- Main diagonal built by each sweep: `new Array(n).fill(v); b[0] = 1;
b[n-1] = 1`. -/
def triB (n : ℕ) (v : ℚ) : List ℚ :=
  ((List.replicate n v).set 0 1).set (n - 1) 1

/-- Super-diagonal built by each sweep: `new Array(n).fill(-s); c[0] = 0`. -/
def triC (n : ℕ) (s : ℚ) : List ℚ :=
  (List.replicate n (-s)).set 0 0

/-- `forwardEuler2D(u, rx, ry)` of `src/2d/app.js` lines 114–129
(`src/unnamed/part_001` lines 167–180 is the same code): zero-filled
result, interior five-point stencil update. -/
def forwardEuler2D (u : List (List ℚ)) (rx ry : ℚ) : List (List ℚ) :=
  let Nx := u.length
  let Ny := (u.getD 0 []).length
  List.ofFn (n := Nx) fun i => List.ofFn (n := Ny) fun j =>
    if 1 ≤ i.1 ∧ i.1 + 1 < Nx ∧ 1 ≤ j.1 ∧ j.1 + 1 < Ny then
      (u.getD i.1 []).getD j.1 0 +
        rx * ((u.getD (i.1 + 1) []).getD j.1 0 - 2 * (u.getD i.1 []).getD j.1 0 +
          (u.getD (i.1 - 1) []).getD j.1 0) +
        ry * ((u.getD i.1 []).getD (j.1 + 1) 0 - 2 * (u.getD i.1 []).getD j.1 0 +
          (u.getD i.1 []).getD (j.1 - 1) 0)
    else 0

/-- `backwardEulerADI(u, rx, ry)` of `src/2d/app.js` lines 139–207:
sweep 1 solves implicitly along x for each interior row index `j` with
right-hand side `d[i] = u[i][j]` (boundaries of `d` then forced to 0),
writing column `j` of `uStar` (other columns stay at their zero fill);
sweep 2 solves implicitly along y for each interior `i` with right-hand
side `uStar[i][·]`, writing row `i` of the result. -/
def backwardEulerADI (u : List (List ℚ)) (rx ry : ℚ) : List (List ℚ) :=
  let Nx := u.length
  let Ny := (u.getD 0 []).length
  let xsolve : ℕ → List ℚ := fun j =>
    thomasAlgorithm (triA Nx rx) (triB Nx (1 + 2 * rx)) (triC Nx rx)
      (((List.ofFn (n := Nx) fun i => (u.getD i.1 []).getD j 0).set 0 0).set (Nx - 1) 0)
  let uStar : List (List ℚ) := List.ofFn (n := Nx) fun i => List.ofFn (n := Ny) fun j =>
    if 1 ≤ j.1 ∧ j.1 + 1 < Ny then (xsolve j.1).getD i.1 0 else 0
  let ysolve : ℕ → List ℚ := fun i =>
    thomasAlgorithm (triA Ny ry) (triB Ny (1 + 2 * ry)) (triC Ny ry)
      (((List.ofFn (n := Ny) fun j => (uStar.getD i []).getD j.1 0).set 0 0).set (Ny - 1) 0)
  List.ofFn (n := Nx) fun i => List.ofFn (n := Ny) fun j =>
    if 1 ≤ i.1 ∧ i.1 + 1 < Nx then (ysolve i.1).getD j.1 0 else 0

/-- X-sweep solve of `crankNicolsonADI` (`src/2d/app.js` lines 226–241)
for column `j`: implicit x-system (`rx2 = rx/2` inlined) with right-hand
side interior `d[i] = u[i][j] + ry2*(u[i][j+1] - 2*u[i][j] + u[i][j-1])`
— the explicit *y-direction* half-stencil — and boundary zeros. -/
def cnADIxsolve (u : List (List ℚ)) (rx ry : ℚ) (j : ℕ) : List ℚ :=
  thomasAlgorithm (triA u.length (rx / 2)) (triB u.length (1 + rx)) (triC u.length (rx / 2))
    (List.ofFn (n := u.length) fun i =>
      if i.1 = 0 ∨ i.1 = u.length - 1 then 0
      else (u.getD i.1 []).getD j 0 +
        ry / 2 * ((u.getD i.1 []).getD (j + 1) 0 - 2 * (u.getD i.1 []).getD j 0 +
          (u.getD i.1 []).getD (j - 1) 0))

/-- The `uStar` intermediate field of `crankNicolsonADI`: the x-sweep
writes column `j` for interior `j` only; other columns keep the zero
fill. -/
def cnADIuStar (u : List (List ℚ)) (rx ry : ℚ) : List (List ℚ) :=
  List.ofFn (n := u.length) fun i =>
    List.ofFn (n := (u.getD 0 []).length) fun j =>
      if 1 ≤ j.1 ∧ j.1 + 1 < (u.getD 0 []).length then (cnADIxsolve u rx ry j.1).getD i.1 0
      else 0

/-- Y-sweep solve of `crankNicolsonADI` (lines 245–260) for row `i`:
implicit y-system with right-hand side interior
`d[j] = uStar[i][j] + rx2*(uStar[i+1][j] - 2*uStar[i][j] + uStar[i-1][j])`
— the explicit *x-direction* half-stencil of `uStar` — and boundary
zeros. -/
def cnADIysolve (u : List (List ℚ)) (rx ry : ℚ) (i : ℕ) : List ℚ :=
  thomasAlgorithm (triA (u.getD 0 []).length (ry / 2)) (triB (u.getD 0 []).length (1 + ry))
    (triC (u.getD 0 []).length (ry / 2))
    (List.ofFn (n := (u.getD 0 []).length) fun j =>
      if j.1 = 0 ∨ j.1 = (u.getD 0 []).length - 1 then 0
      else ((cnADIuStar u rx ry).getD i []).getD j.1 0 +
        rx / 2 * (((cnADIuStar u rx ry).getD (i + 1) []).getD j.1 0 -
          2 * ((cnADIuStar u rx ry).getD i []).getD j.1 0 +
          ((cnADIuStar u rx ry).getD (i - 1) []).getD j.1 0))

/-- `crankNicolsonADI(u, rx, ry)` of `src/2d/app.js` lines 216–264
(Peaceman-Rachford): the y-sweep writes row `i` for interior `i` only;
boundary rows keep the zero fill. -/
def crankNicolsonADI (u : List (List ℚ)) (rx ry : ℚ) : List (List ℚ) :=
  List.ofFn (n := u.length) fun i =>
    List.ofFn (n := (u.getD 0 []).length) fun j =>
      if 1 ≤ i.1 ∧ i.1 + 1 < u.length then (cnADIysolve u rx ry i.1).getD j.1 0 else 0

/-- X-sweep solve of `backwardEuler2D_ADI` (`src/unnamed/part_001`
lines 189–204) for column `j`: implicit x-system with right-hand side
`d = new Array(Nx)`, interior `d[i] = u[i][j]`, boundary zeros. -/
def be2Dxsolve (u : List (List ℚ)) (rx : ℚ) (j : ℕ) : List ℚ :=
  thomasAlgorithm (triA u.length rx) (triB u.length (1 + 2 * rx)) (triC u.length rx)
    (List.ofFn (n := u.length) fun i =>
      if i.1 = 0 ∨ i.1 = u.length - 1 then 0 else (u.getD i.1 []).getD j 0)

/-- The `uHalf` intermediate field of `backwardEuler2D_ADI`: the x-sweep
writes `uHalf[i][j] = sol[i]` for every row index `j`. -/
def be2DuHalf (u : List (List ℚ)) (rx : ℚ) : List (List ℚ) :=
  List.ofFn (n := u.length) fun i =>
    List.ofFn (n := (u.getD 0 []).length) fun j => (be2Dxsolve u rx j.1).getD i.1 0

/-- Y-sweep solve of `backwardEuler2D_ADI` (lines 207–222) for row `i`:
implicit y-system with right-hand side interior `d[j] = uHalf[i][j]`,
boundary zeros. -/
def be2Dysolve (u : List (List ℚ)) (rx ry : ℚ) (i : ℕ) : List ℚ :=
  thomasAlgorithm (triA (u.getD 0 []).length ry) (triB (u.getD 0 []).length (1 + 2 * ry))
    (triC (u.getD 0 []).length ry)
    (List.ofFn (n := (u.getD 0 []).length) fun j =>
      if j.1 = 0 ∨ j.1 = (u.getD 0 []).length - 1 then 0
      else ((be2DuHalf u rx).getD i []).getD j.1 0)

/-- `backwardEuler2D_ADI(u, rx, ry)` of `src/unnamed/part_001`
lines 182–224: like `backwardEulerADI` but both sweeps run over *every*
row/column index and the right-hand sides set only interior entries from
the field (`d = new Array(n)`, interior loop, boundary zeros);
`uNew[i][j] = sol[j]` for every `i`. -/
def backwardEuler2D_ADI (u : List (List ℚ)) (rx ry : ℚ) : List (List ℚ) :=
  List.ofFn (n := u.length) fun i =>
    List.ofFn (n := (u.getD 0 []).length) fun j => (be2Dysolve u rx ry i.1).getD j.1 0

/-- X-sweep solve of `crankNicolson2D_ADI` (`src/unnamed/part_001`
lines 235–250) for column `j`: implicit x-system with right-hand side
interior `d[i] = (1-rx)*u[i][j] + (rx/2)*(u[i+1][j] + u[i-1][j])` — an
*x-direction* explicit contribution (`rx2 = rx/2` inlined) — and boundary
zeros. -/
def cn2Dxsolve (u : List (List ℚ)) (rx : ℚ) (j : ℕ) : List ℚ :=
  thomasAlgorithm (triA u.length (rx / 2)) (triB u.length (1 + rx)) (triC u.length (rx / 2))
    (List.ofFn (n := u.length) fun i =>
      if i.1 = 0 ∨ i.1 = u.length - 1 then 0
      else (1 - rx) * (u.getD i.1 []).getD j 0 +
        rx / 2 * ((u.getD (i.1 + 1) []).getD j 0 + (u.getD (i.1 - 1) []).getD j 0))

/-- The `uHalf` intermediate field of `crankNicolson2D_ADI`. -/
def cn2DuHalf (u : List (List ℚ)) (rx : ℚ) : List (List ℚ) :=
  List.ofFn (n := u.length) fun i =>
    List.ofFn (n := (u.getD 0 []).length) fun j => (cn2Dxsolve u rx j.1).getD i.1 0

/-- Y-sweep solve of `crankNicolson2D_ADI` (lines 253–268) for row `i`:
implicit y-system with right-hand side interior
`d[j] = (1-ry)*uHalf[i][j] + (ry/2)*(uHalf[i][j+1] + uHalf[i][j-1])` and
boundary zeros. -/
def cn2Dysolve (u : List (List ℚ)) (rx ry : ℚ) (i : ℕ) : List ℚ :=
  thomasAlgorithm (triA (u.getD 0 []).length (ry / 2)) (triB (u.getD 0 []).length (1 + ry))
    (triC (u.getD 0 []).length (ry / 2))
    (List.ofFn (n := (u.getD 0 []).length) fun j =>
      if j.1 = 0 ∨ j.1 = (u.getD 0 []).length - 1 then 0
      else (1 - ry) * ((cn2DuHalf u rx).getD i []).getD j.1 0 +
        ry / 2 * (((cn2DuHalf u rx).getD i []).getD (j.1 + 1) 0 +
          ((cn2DuHalf u rx).getD i []).getD (j.1 - 1) 0))

/-- `crankNicolson2D_ADI(u, rx, ry)` of `src/unnamed/part_001`
lines 226–270: sweep 1 solves implicitly along x with an *x-direction*
explicit contribution in its right-hand side, sweep 2 solves implicitly
along y with a *y-direction* explicit contribution from `uHalf`; both
sweeps run over every row/column index. -/
def crankNicolson2D_ADI (u : List (List ℚ)) (rx ry : ℚ) : List (List ℚ) :=
  List.ofFn (n := u.length) fun i =>
    List.ofFn (n := (u.getD 0 []).length) fun j => (cn2Dysolve u rx ry i.1).getD j.1 0

/-- Modelled from the spec (§4.6 / C5), half-step 1: solve implicitly
along x with coefficients built from `rx/2` (sub/super `-(rx/2)`, main
`1 + 2*(rx/2)`) and right-hand side equal to the current field plus an
explicit `ry/2` central-difference contribution in y; boundaries forced
to 0. -/
def specPRxsolve (u : List (List ℚ)) (rx ry : ℚ) (j : ℕ) : List ℚ :=
  thomasAlgorithm (triA u.length (rx / 2)) (triB u.length (1 + 2 * (rx / 2)))
    (triC u.length (rx / 2))
    (List.ofFn (n := u.length) fun i =>
      if i.1 = 0 ∨ i.1 = u.length - 1 then 0
      else (u.getD i.1 []).getD j 0 +
        ry / 2 * ((u.getD i.1 []).getD (j + 1) 0 - 2 * (u.getD i.1 []).getD j 0 +
          (u.getD i.1 []).getD (j - 1) 0))

/-- Modelled from the spec: the half-step-1 result (interior columns
solved, boundaries 0). -/
def specPRuStar (u : List (List ℚ)) (rx ry : ℚ) : List (List ℚ) :=
  List.ofFn (n := u.length) fun i =>
    List.ofFn (n := (u.getD 0 []).length) fun j =>
      if 1 ≤ j.1 ∧ j.1 + 1 < (u.getD 0 []).length then (specPRxsolve u rx ry j.1).getD i.1 0
      else 0

/-- Modelled from the spec, half-step 2: solve implicitly along y with
coefficients built from `ry/2` and right-hand side equal to the
half-step-1 result plus an explicit `rx/2` central-difference contribution
in x; boundaries forced to 0. -/
def specPRysolve (u : List (List ℚ)) (rx ry : ℚ) (i : ℕ) : List ℚ :=
  thomasAlgorithm (triA (u.getD 0 []).length (ry / 2))
    (triB (u.getD 0 []).length (1 + 2 * (ry / 2))) (triC (u.getD 0 []).length (ry / 2))
    (List.ofFn (n := (u.getD 0 []).length) fun j =>
      if j.1 = 0 ∨ j.1 = (u.getD 0 []).length - 1 then 0
      else ((specPRuStar u rx ry).getD i []).getD j.1 0 +
        rx / 2 * (((specPRuStar u rx ry).getD (i + 1) []).getD j.1 0 -
          2 * ((specPRuStar u rx ry).getD i []).getD j.1 0 +
          ((specPRuStar u rx ry).getD (i - 1) []).getD j.1 0))

/-- Modelled from the spec (§4.6 / C5): the full Peaceman-Rachford ADI
step, with boundaries forced to 0 in both sweeps. -/
def specPeacemanRachfordADI (u : List (List ℚ)) (rx ry : ℚ) : List (List ℚ) :=
  List.ofFn (n := u.length) fun i =>
    List.ofFn (n := (u.getD 0 []).length) fun j =>
      if 1 ≤ i.1 ∧ i.1 + 1 < u.length then (specPRysolve u rx ry i.1).getD j.1 0 else 0

/-! ## List-level helper lemmas -/

lemma zip4_append (a1 b1 c1 d1 a2 b2 c2 d2 : List ℚ)
    (h1 : a1.length = d1.length) (h2 : b1.length = d1.length) (h3 : c1.length = d1.length) :
    zip4 (a1 ++ a2) (b1 ++ b2) (c1 ++ c2) (d1 ++ d2) =
      zip4 a1 b1 c1 d1 ++ zip4 a2 b2 c2 d2 := by
  induction d1 generalizing a1 b1 c1 with
  | nil =>
      rw [List.length_nil] at h1 h2 h3
      rw [List.eq_nil_of_length_eq_zero h1, List.eq_nil_of_length_eq_zero h2,
        List.eq_nil_of_length_eq_zero h3]
      simp [zip4]
  | cons x xs ih =>
      cases a1 with
      | nil => simp at h1
      | cons pa ta =>
        cases b1 with
        | nil => simp at h2
        | cons pb tb =>
          cases c1 with
          | nil => simp at h3
          | cons pc tc =>
            simp only [List.length_cons] at h1 h2 h3
            simp only [List.cons_append, zip4, List.cons.injEq, true_and]
            exact ih ta tb tc (by omega) (by omega) (by omega)

lemma zip4_length (a b c d : List ℚ)
    (h1 : a.length = d.length) (h2 : b.length = d.length) (h3 : c.length = d.length) :
    (zip4 a b c d).length = d.length := by
  induction d generalizing a b c with
  | nil =>
      rw [List.length_nil] at h1 h2 h3
      rw [List.eq_nil_of_length_eq_zero h1, List.eq_nil_of_length_eq_zero h2,
        List.eq_nil_of_length_eq_zero h3]
      rfl
  | cons x xs ih =>
      cases a with
      | nil => simp at h1
      | cons pa ta =>
        cases b with
        | nil => simp at h2
        | cons pb tb =>
          cases c with
          | nil => simp at h3
          | cons pc tc =>
            simp only [List.length_cons] at h1 h2 h3 ⊢
            rw [zip4]
            simp only [List.length_cons]
            rw [ih ta tb tc (by omega) (by omega) (by omega)]

lemma mem_zip4_replicate (m : ℕ) (x y z : ℚ) (w : List ℚ) (row : ℚ × ℚ × ℚ × ℚ)
    (h : row ∈ zip4 (List.replicate m x) (List.replicate m y) (List.replicate m z) w) :
    row.1 = x ∧ row.2.1 = y ∧ row.2.2.1 = z := by
  induction m generalizing w with
  | zero => simp [zip4] at h
  | succ k ih =>
      cases w with
      | nil => simp [List.replicate_succ, zip4] at h
      | cons pw tw =>
          simp only [List.replicate_succ, zip4, List.mem_cons] at h
          rcases h with h | h
          · rw [h]; exact ⟨rfl, rfl, rfl⟩
          · exact ih tw h

lemma mem_zip4_d (a b c d : List ℚ) (row : ℚ × ℚ × ℚ × ℚ)
    (h : row ∈ zip4 a b c d) : row.2.2.2 ∈ d := by
  induction a generalizing b c d with
  | nil => simp [zip4] at h
  | cons pa ta ih =>
      cases b with
      | nil => simp [zip4] at h
      | cons pb tb =>
        cases c with
        | nil => simp [zip4] at h
        | cons pc tc =>
          cases d with
          | nil => simp [zip4] at h
          | cons pd td =>
              simp only [zip4, List.mem_cons] at h
              rcases h with h | h
              · rw [h]; simp
              · exact List.mem_cons_of_mem _ (ih tb tc td h)

lemma drop_length_sub_one (l : List ℚ) (m : ℕ) (h : l.length = m + 1) :
    l.drop m = [l.getD m 0] := by
  induction l generalizing m with
  | nil => simp at h
  | cons x xs ih =>
      cases m with
      | zero =>
          have hxs : xs = [] := by
            have : xs.length = 0 := by simpa using h
            exact List.eq_nil_of_length_eq_zero this
          simp [hxs]
      | succ k =>
          simp only [List.drop_succ_cons, List.getD_cons_succ]
          exact ih k (by simpa using h)

lemma getD_rep_append_last (m : ℕ) (x y : ℚ) :
    (List.replicate m x ++ [y]).getD m 0 = y := by
  induction m with
  | zero => rfl
  | succ k ih =>
      rw [List.replicate_succ, List.cons_append, List.getD_cons_succ]
      exact ih

lemma getD_last (l : List ℚ) (q : ℚ) (h : l.getLast? = some q) :
    l.getD (l.length - 1) 0 = q := by
  induction l with
  | nil => simp at h
  | cons x xs ih =>
      cases xs with
      | nil =>
          simp only [List.getLast?_singleton, Option.some.injEq] at h
          simp [h]
      | cons y ys =>
          rw [List.getLast?_cons_cons] at h
          have hlen : (x :: y :: ys).length - 1 = (y :: ys).length - 1 + 1 := by
            simp
          rw [hlen, List.getD_cons_succ]
          exact ih h

lemma getD_zero_of_all_zero (l : List ℚ) (h : ∀ x ∈ l, x = 0) (k : ℕ) :
    l.getD k 0 = 0 := by
  induction l generalizing k with
  | nil => simp
  | cons x xs ih =>
      cases k with
      | zero => simpa using h x (by simp)
      | succ k2 =>
          rw [List.getD_cons_succ]
          exact ih (fun y hy => h y (List.mem_cons_of_mem _ hy)) k2

lemma set_self_of_getD (l : List ℚ) (i : ℕ) (x : ℚ)
    (hx : l.getD i 0 = x) (hi : i < l.length) : l.set i x = l := by
  induction l generalizing i with
  | nil => simp at hi
  | cons y ys ih =>
      cases i with
      | zero => rw [List.getD_cons_zero] at hx; rw [← hx]; rfl
      | succ k =>
          rw [List.getD_cons_succ] at hx
          show y :: ys.set k x = y :: ys
          rw [ih k hx (by simpa using hi)]

lemma repset_last (m : ℕ) (x y : ℚ) :
    (List.replicate (m + 1) x).set m y = List.replicate m x ++ [y] := by
  induction m with
  | zero => rfl
  | succ k ih =>
      rw [List.replicate_succ, List.set_cons_succ, ih, List.replicate_succ]
      rfl

lemma sysA_decomp (n : ℕ) (x : ℚ) (hn : 2 ≤ n) :
    (List.replicate n x).set (n - 1) 0 = x :: (List.replicate (n - 2) x ++ [0]) := by
  obtain ⟨m, rfl⟩ : ∃ m, n = m + 2 := ⟨n - 2, by omega⟩
  rw [show m + 2 - 1 = m + 1 from rfl,
    show List.replicate (m + 2) x = x :: List.replicate (m + 1) x from
      List.replicate_succ x (m + 1),
    List.set_cons_succ, repset_last m x 0]
  simp

lemma sysB_decomp (n : ℕ) (v : ℚ) (hn : 2 ≤ n) :
    ((List.replicate n v).set 0 1).set (n - 1) 1 =
      1 :: (List.replicate (n - 2) v ++ [1]) := by
  obtain ⟨m, rfl⟩ : ∃ m, n = m + 2 := ⟨n - 2, by omega⟩
  rw [show List.replicate (m + 2) v = v :: List.replicate (m + 1) v from
    List.replicate_succ v (m + 1), List.set_cons_zero]
  rw [show m + 2 - 1 = m + 1 from rfl, List.set_cons_succ, repset_last m v 1]
  simp

lemma sysC_decomp (n : ℕ) (v : ℚ) (hn : 1 ≤ n) :
    (List.replicate n v).set 0 0 = 0 :: List.replicate (n - 1) v := by
  rw [show n = n - 1 + 1 from by omega, List.replicate_succ, List.set_cons_zero]
  simp

/-! ## Solver-level helper lemmas -/

lemma thomasSweep_length (rows : List (ℚ × ℚ × ℚ × ℚ)) :
    ∀ (cp dp : ℚ) (l : List (ℚ × ℚ)),
      thomasSweep rows cp dp = some l → l.length = rows.length := by
  induction rows with
  | nil =>
      intro cp dp l h
      simp only [thomasSweep, Option.some.injEq] at h
      rw [← h]
      rfl
  | cons row rest ih =>
      intro cp dp l h
      obtain ⟨a, b, c, d⟩ := row
      by_cases hs : |b - a * cp| < tEps
      · simp [thomasSweep, hs] at h
      · simp only [thomasSweep, hs, if_false] at h
        cases hsw : thomasSweep rest (c / (b - a * cp)) ((d - a * dp) / (b - a * cp)) with
        | none => rw [hsw] at h; simp at h
        | some l2 =>
            rw [hsw] at h
            simp only [Option.some.injEq] at h
            rw [← h]
            simp only [List.length_cons]
            rw [ih _ _ l2 hsw]

lemma thomasSweep_isSome_of_pivots (rows : List (ℚ × ℚ × ℚ × ℚ)) :
    ∀ (cp dp : ℚ), (∀ p ∈ pivotsAux rows cp, tEps ≤ |p|) →
      ∃ l, thomasSweep rows cp dp = some l := by
  induction rows with
  | nil => intro cp dp _; exact ⟨[], rfl⟩
  | cons row rest ih =>
      intro cp dp h
      obtain ⟨a, b, c, d⟩ := row
      have hp : tEps ≤ |b - a * cp| := h _ (by simp [pivotsAux])
      have hnot : ¬ |b - a * cp| < tEps := not_lt.mpr hp
      obtain ⟨l2, hl2⟩ := ih (c / (b - a * cp)) ((d - a * dp) / (b - a * cp))
        (fun p hp2 => h p (by simp only [pivotsAux, List.mem_cons]; right; exact hp2))
      refine ⟨(c / (b - a * cp), (d - a * dp) / (b - a * cp)) :: l2, ?_⟩
      simp only [thomasSweep, hnot, if_false, hl2]

lemma thomasSweep_none_of_pivot_small (rows : List (ℚ × ℚ × ℚ × ℚ)) :
    ∀ (cp dp : ℚ), (∃ p ∈ pivotsAux rows cp, |p| < tEps) →
      thomasSweep rows cp dp = none := by
  induction rows with
  | nil => intro cp dp h; simp [pivotsAux] at h
  | cons row rest ih =>
      intro cp dp h
      obtain ⟨a, b, c, d⟩ := row
      by_cases hs : |b - a * cp| < tEps
      · simp [thomasSweep, hs]
      · obtain ⟨p, hmem, hp⟩ := h
        simp only [pivotsAux, List.mem_cons] at hmem
        rcases hmem with rfl | hmem
        · exact absurd hp hs
        · simp only [thomasSweep, hs, if_false]
          rw [ih _ ((d - a * dp) / (b - a * cp)) ⟨p, hmem, hp⟩]

lemma pivotsAux_append (l1 l2 : List (ℚ × ℚ × ℚ × ℚ)) (cp : ℚ) :
    pivotsAux (l1 ++ l2) cp = pivotsAux l1 cp ++ pivotsAux l2 (finalCp l1 cp) := by
  induction l1 generalizing cp with
  | nil => simp [pivotsAux, finalCp]
  | cons row rest ih =>
      obtain ⟨a, b, c, d⟩ := row
      simp only [List.cons_append, pivotsAux, finalCp, List.cons.injEq, true_and]
      exact ih _

lemma backSub_length (L : List (ℚ × ℚ)) : (backSub L).length = L.length := by
  induction L with
  | nil => rfl
  | cons p rest ih =>
      obtain ⟨cp, dp⟩ := p
      rw [backSub]
      cases h : backSub rest with
      | nil => rw [h] at ih; simp [← ih]
      | cons x xs => rw [h] at ih; simp only [List.length_cons, ih]

lemma backSub_getLast (L : List (ℚ × ℚ)) (q : ℚ × ℚ) (h : L.getLast? = some q) :
    (backSub L).getLast? = some q.2 := by
  induction L with
  | nil => simp at h
  | cons p rest ih =>
      obtain ⟨cp, dp⟩ := p
      cases rest with
      | nil =>
          simp only [List.getLast?_singleton, Option.some.injEq] at h
          rw [← h]
          rfl
      | cons p2 rest2 =>
          rw [List.getLast?_cons_cons] at h
          have hne : backSub (p2 :: rest2) ≠ [] := by
            intro hempty
            have := backSub_length (p2 :: rest2)
            rw [hempty] at this
            simp at this
          rw [backSub]
          cases hbs : backSub (p2 :: rest2) with
          | nil => exact absurd hbs hne
          | cons x xs =>
              rw [List.getLast?_cons_cons]
              rw [← hbs, ih h]

lemma thomasSweep_last (rows0 : List (ℚ × ℚ × ℚ × ℚ)) :
    ∀ (bl cl cp dp : ℚ) (l : List (ℚ × ℚ)),
      thomasSweep (rows0 ++ [(0, bl, cl, 0)]) cp dp = some l →
      ∃ q : ℚ × ℚ, l.getLast? = some q ∧ q.2 = 0 := by
  induction rows0 with
  | nil =>
      intro bl cl cp dp l h
      rw [List.nil_append] at h
      simp only [thomasSweep] at h
      by_cases hs : |bl - 0 * cp| < tEps
      · rw [if_pos hs] at h
        exact absurd h (by simp)
      · rw [if_neg hs] at h
        simp only [Option.some.injEq] at h
        refine ⟨(cl / (bl - 0 * cp), (0 - 0 * dp) / (bl - 0 * cp)), ?_, ?_⟩
        · rw [← h]; rfl
        · simp
  | cons row rest ih =>
      intro bl cl cp dp l h
      obtain ⟨a, b, c, d⟩ := row
      rw [List.cons_append] at h
      simp only [thomasSweep, List.append_eq] at h
      by_cases hs : |b - a * cp| < tEps
      · rw [if_pos hs] at h
        exact absurd h (by simp)
      · rw [if_neg hs] at h
        cases hsw : thomasSweep (rest ++ [(0, bl, cl, 0)])
            (c / (b - a * cp)) ((d - a * dp) / (b - a * cp)) with
        | none => rw [hsw] at h; simp at h
        | some l2 =>
            rw [hsw] at h
            simp only [Option.some.injEq] at h
            obtain ⟨q, hq, hq2⟩ := ih bl cl _ _ l2 hsw
            refine ⟨q, ?_, hq2⟩
            rw [← h]
            cases l2 with
            | nil => simp at hq
            | cons x xs => rw [List.getLast?_cons_cons]; exact hq

lemma thomas_eq_of_degenerate (a b c d : List ℚ)
    (h : thomasDegenerate a b c d = true) : thomasAlgorithm a b c d = d := by
  cases b with
  | nil => rfl
  | cons b0 tb =>
    cases c with
    | nil => rfl
    | cons c0 tc =>
      cases d with
      | nil => rfl
      | cons d0 td =>
          by_cases hb : |b0| < tEps
          · simp [thomasAlgorithm, hb]
          · simp only [thomasDegenerate, hb, if_false] at h
            simp only [thomasAlgorithm, hb, if_false]
            cases hsw : thomasSweep (zip4 a.tail (b0 :: tb).tail (c0 :: tc).tail
                (d0 :: td).tail) (c0 / b0) (d0 / b0) with
            | none => rfl
            | some l => rw [hsw] at h; simp [Option.isNone] at h

lemma thomas_not_degenerate (a b c d : List ℚ)
    (h : ∀ p ∈ thomasPivots a b c d, tEps ≤ |p|) :
    thomasDegenerate a b c d = false := by
  cases b with
  | nil => rfl
  | cons b0 tb =>
    cases c with
    | nil => rfl
    | cons c0 tc =>
      cases d with
      | nil => rfl
      | cons d0 td =>
          have hb : tEps ≤ |b0| := h b0 (by simp [thomasPivots])
          have hbnot : ¬ |b0| < tEps := not_lt.mpr hb
          simp only [thomasDegenerate, hbnot, if_false]
          obtain ⟨l, hl⟩ := thomasSweep_isSome_of_pivots _ (c0 / b0) (d0 / b0)
            (fun p hp => h p (by
              simp only [thomasPivots, List.mem_cons]
              right
              exact hp))
          rw [hl]
          rfl

lemma thomas_of_pivot_small (a b c d : List ℚ)
    (h : ∃ p ∈ thomasPivots a b c d, |p| < tEps) : thomasAlgorithm a b c d = d := by
  cases b with
  | nil => rfl
  | cons b0 tb =>
    cases c with
    | nil => rfl
    | cons c0 tc =>
      cases d with
      | nil => rfl
      | cons d0 td =>
          by_cases hb : |b0| < tEps
          · simp [thomasAlgorithm, hb]
          · obtain ⟨p, hmem, hp⟩ := h
            simp only [thomasPivots, List.mem_cons] at hmem
            rcases hmem with rfl | hmem
            · exact absurd hp hb
            · simp only [thomasAlgorithm, hb, if_false]
              rw [thomasSweep_none_of_pivot_small _ _ (d0 / b0) ⟨p, hmem, hp⟩]

lemma zip4_tails_decomp (ta tb tc td : List ℚ) (m : ℕ)
    (h1 : ta.length = m + 1) (h2 : tb.length = m + 1)
    (h3 : tc.length = m + 1) (h4 : td.length = m + 1) :
    zip4 ta tb tc td =
      zip4 (ta.take m) (tb.take m) (tc.take m) (td.take m) ++
        [(ta.getD m 0, tb.getD m 0, tc.getD m 0, td.getD m 0)] := by
  have e1 : ta = ta.take m ++ [ta.getD m 0] := by
    rw [← drop_length_sub_one ta m h1, List.take_append_drop]
  have e2 : tb = tb.take m ++ [tb.getD m 0] := by
    rw [← drop_length_sub_one tb m h2, List.take_append_drop]
  have e3 : tc = tc.take m ++ [tc.getD m 0] := by
    rw [← drop_length_sub_one tc m h3, List.take_append_drop]
  have e4 : td = td.take m ++ [td.getD m 0] := by
    rw [← drop_length_sub_one td m h4, List.take_append_drop]
  conv_lhs => rw [e1, e2, e3, e4]
  rw [zip4_append _ _ _ _ _ _ _ _
    (by rw [List.length_take, List.length_take]; omega)
    (by rw [List.length_take, List.length_take]; omega)
    (by rw [List.length_take, List.length_take]; omega)]
  rfl

lemma one_not_small : ¬ |(1 : ℚ)| < tEps := by norm_num [tEps]

/-- A tridiagonal system whose first row is the identity row `x_0 = 0` and
whose last row has `a_{n-1} = 0` and `d_{n-1} = 0` always produces a result
of length `n` whose first and last entries are `0` (on the degenerate
fallback path as well). -/
lemma thomas_boundary (a b c d : List ℚ) (n : ℕ)
    (hla : a.length = n) (hlb : b.length = n) (hlc : c.length = n) (hld : d.length = n)
    (hn : 2 ≤ n)
    (hb0 : b.getD 0 0 = 1) (hc0 : c.getD 0 0 = 0) (hd0 : d.getD 0 0 = 0)
    (han : a.getD (n - 1) 0 = 0) (hdn : d.getD (n - 1) 0 = 0) :
    (thomasAlgorithm a b c d).length = n ∧
    (thomasAlgorithm a b c d).getD 0 0 = 0 ∧
    (thomasAlgorithm a b c d).getD (n - 1) 0 = 0 := by
  obtain ⟨m, rfl⟩ : ∃ m, n = m + 2 := ⟨n - 2, by omega⟩
  cases a with
  | nil => simp at hla
  | cons a0 ta =>
  cases b with
  | nil => simp at hlb
  | cons b0 tb =>
  cases c with
  | nil => simp at hlc
  | cons c0 tc =>
  cases d with
  | nil => simp at hld
  | cons d0 td =>
  rw [List.getD_cons_zero] at hb0 hc0 hd0
  subst hb0; subst hc0; subst hd0
  rw [show m + 2 - 1 = m + 1 from rfl, List.getD_cons_succ] at han hdn
  simp only [List.length_cons] at hla hlb hlc hld
  have hta : ta.length = m + 1 := by omega
  have htb : tb.length = m + 1 := by omega
  have htc : tc.length = m + 1 := by omega
  have htd : td.length = m + 1 := by omega
  have hrows : zip4 ta tb tc td =
      zip4 (ta.take m) (tb.take m) (tc.take m) (td.take m) ++
        [(0, tb.getD m 0, tc.getD m 0, 0)] := by
    rw [zip4_tails_decomp ta tb tc td m hta htb htc htd, han, hdn]
  have hrowslen : (zip4 ta tb tc td).length = m + 1 := by
    rw [zip4_length ta tb tc td (by omega) (by omega) (by omega), htd]
  simp only [thomasAlgorithm, List.tail_cons]
  rw [if_neg one_not_small]
  rw [show (0 : ℚ) / 1 = 0 from by norm_num]
  cases hsw : thomasSweep (zip4 ta tb tc td) 0 0 with
  | none =>
      refine ⟨by simpa using hld, by simp, ?_⟩
      rw [show m + 2 - 1 = m + 1 from rfl, List.getD_cons_succ]
      exact hdn
  | some l =>
      have hlen : l.length = m + 1 := by
        rw [thomasSweep_length _ _ _ _ hsw, hrowslen]
      have hreslen : (backSub ((0, 0) :: l)).length = m + 2 := by
        rw [backSub_length]
        simp [hlen]
      refine ⟨hreslen, ?_, ?_⟩
      · simp only [backSub]
        cases hbs : backSub l with
        | nil => rfl
        | cons x xs => simp
      · rw [hrows] at hsw
        obtain ⟨q, hq, hq2⟩ := thomasSweep_last _ _ _ _ _ _ hsw
        have hlast : ((0, 0) :: l).getLast? = some q := by
          cases l with
          | nil => simp at hq
          | cons x xs => rw [List.getLast?_cons_cons]; exact hq
        have := backSub_getLast _ _ hlast
        rw [hq2] at this
        have hfin := getD_last _ _ this
        rw [hreslen] at hfin
        exact hfin

lemma thomasSweep_dp_zero (rows : List (ℚ × ℚ × ℚ × ℚ)) :
    ∀ (cp : ℚ) (l : List (ℚ × ℚ)), (∀ row ∈ rows, row.2.2.2 = 0) →
      thomasSweep rows cp 0 = some l → ∀ q ∈ l, q.2 = 0 := by
  induction rows with
  | nil =>
      intro cp l _ h q hq
      simp only [thomasSweep, Option.some.injEq] at h
      rw [← h] at hq
      simp at hq
  | cons row rest ih =>
      intro cp l hrows h q hq
      obtain ⟨a, b, c, d⟩ := row
      have hd : d = 0 := hrows (a, b, c, d) (List.mem_cons_self _ _)
      simp only [thomasSweep] at h
      by_cases hs : |b - a * cp| < tEps
      · rw [if_pos hs] at h; simp at h
      · rw [if_neg hs] at h
        have hdp : (d - a * 0) / (b - a * cp) = 0 := by
          rw [hd]; simp
        rw [hdp] at h
        cases hsw : thomasSweep rest (c / (b - a * cp)) 0 with
        | none => rw [hsw] at h; simp at h
        | some l2 =>
            rw [hsw] at h
            simp only [Option.some.injEq] at h
            rw [← h] at hq
            simp only [List.mem_cons] at hq
            rcases hq with rfl | hq
            · rfl
            · exact ih _ l2 (fun row2 h2 => hrows row2 (List.mem_cons_of_mem _ h2))
                hsw q hq

lemma backSub_all_zero (L : List (ℚ × ℚ)) (h : ∀ q ∈ L, q.2 = 0) :
    ∀ x ∈ backSub L, x = 0 := by
  induction L with
  | nil => simp [backSub]
  | cons p rest ih =>
      obtain ⟨cp, dp⟩ := p
      have hdp : dp = 0 := h (cp, dp) (List.mem_cons_self _ _)
      have hrest : ∀ q ∈ rest, q.2 = 0 := fun q hq => h q (List.mem_cons_of_mem _ hq)
      intro x hx
      rw [backSub] at hx
      cases hbs : backSub rest with
      | nil =>
          rw [hbs] at hx
          simp only [List.mem_singleton] at hx
          rw [hx, hdp]
      | cons y ys =>
          rw [hbs] at hx
          have hy : y = 0 := ih hrest y (by rw [hbs]; simp)
          simp only [List.mem_cons] at hx
          rcases hx with rfl | hx
          · rw [hdp, hy]; ring
          · exact ih hrest x (by rw [hbs]; exact List.mem_cons.mpr hx)

/-- When the right-hand side is identically zero, `thomasAlgorithm` returns
an identically zero vector (both on the success and fallback paths). -/
lemma thomas_all_zero (a b c d : List ℚ) (hd : ∀ x ∈ d, x = 0) :
    ∀ y ∈ thomasAlgorithm a b c d, y = 0 := by
  cases b with
  | nil => intro y hy; exact hd y hy
  | cons b0 tb =>
  cases c with
  | nil => intro y hy; exact hd y hy
  | cons c0 tc =>
  cases d with
  | nil => intro y hy; exact hd y hy
  | cons d0 td =>
  have hd0 : d0 = 0 := hd d0 (List.mem_cons_self _ _)
  by_cases hb : |b0| < tEps
  · intro y hy
    simp only [thomasAlgorithm, if_pos hb] at hy
    exact hd y hy
  · simp only [thomasAlgorithm, if_neg hb]
    have hdp0 : d0 / b0 = 0 := by rw [hd0]; simp
    rw [hdp0]
    cases hsw : thomasSweep (zip4 (a.tail) ((b0 :: tb).tail) ((c0 :: tc).tail)
        ((d0 :: td).tail)) (c0 / b0) 0 with
    | none => exact hd
    | some l =>
        intro y hy
        refine backSub_all_zero _ ?_ y hy
        intro q hq
        simp only [List.mem_cons] at hq
        rcases hq with rfl | hq
        · rfl
        · refine thomasSweep_dp_zero _ _ _ ?_ hsw q hq
          intro row hrow
          have := mem_zip4_d _ _ _ _ _ hrow
          simp only [List.tail_cons] at this
          exact hd _ (List.mem_cons_of_mem _ this)

/-! ## Pivot bounds of the diagonally dominant systems -/

/-- Rows of the shape `(-s, 1 + 2s, -s)` with `s ≥ 0` keep every effective
pivot at least `1` and keep the carried normalized coefficient `cp` in
`[-1, 0]`. -/
lemma pivotsAux_const (s : ℚ) (hs : 0 ≤ s) (rows : List (ℚ × ℚ × ℚ × ℚ)) :
    ∀ cp : ℚ, -1 ≤ cp → cp ≤ 0 →
    (∀ row ∈ rows, row.1 = -s ∧ row.2.1 = 1 + 2 * s ∧ row.2.2.1 = -s) →
    (∀ p ∈ pivotsAux rows cp, 1 ≤ p) ∧
      -1 ≤ finalCp rows cp ∧ finalCp rows cp ≤ 0 := by
  induction rows with
  | nil =>
      intro cp h1 h2 _
      exact ⟨by simp [pivotsAux], by simpa [finalCp] using h1, by simpa [finalCp] using h2⟩
  | cons row rest ih =>
      intro cp h1 h2 hrows
      obtain ⟨a, b, c, d⟩ := row
      obtain ⟨ha, hb, hc⟩ := hrows (a, b, c, d) (List.mem_cons_self _ _)
      simp only at ha hb hc
      subst ha; subst hb; subst hc
      have hdenom : 1 + s ≤ 1 + 2 * s - -s * cp := by nlinarith
      have hdenom1 : (1 : ℚ) ≤ 1 + 2 * s - -s * cp := by linarith
      have hdpos : (0 : ℚ) < 1 + 2 * s - -s * cp := by linarith
      have hcp2a : -1 ≤ -s / (1 + 2 * s - -s * cp) := by
        rw [le_div_iff₀ hdpos]
        nlinarith
      have hcp2b : -s / (1 + 2 * s - -s * cp) ≤ 0 := by
        apply div_nonpos_of_nonpos_of_nonneg <;> linarith
      obtain ⟨hrest, hf1, hf2⟩ := ih (-s / (1 + 2 * s - -s * cp)) hcp2a hcp2b
        (fun r2 h2 => hrows r2 (List.mem_cons_of_mem _ h2))
      refine ⟨?_, ?_, ?_⟩
      · intro p hp
        simp only [pivotsAux, List.mem_cons] at hp
        rcases hp with rfl | hp
        · exact hdenom1
        · exact hrest p hp
      · simpa [finalCp] using hf1
      · simpa [finalCp] using hf2

/-- The pivots of the boundary-conditioned constant tridiagonal system
`a = fill(-s), a[n-1] = 0`; `b = fill(1+2s), b[0] = b[n-1] = 1`;
`c = fill(-s), c[0] = 0` are all at least `1`, for any `s ≥ 0` and any
right-hand side of the same length `n ≥ 2`. -/
lemma standardSys_pivots (s : ℚ) (hs : 0 ≤ s) (n : ℕ) (hn : 2 ≤ n) (dvec : List ℚ)
    (hd : dvec.length = n) :
    ∀ p ∈ thomasPivots ((List.replicate n (-s)).set (n - 1) 0)
        (((List.replicate n (1 + 2 * s)).set 0 1).set (n - 1) 1)
        ((List.replicate n (-s)).set 0 0) dvec, 1 ≤ p := by
  obtain ⟨m, rfl⟩ : ∃ m, n = m + 2 := ⟨n - 2, by omega⟩
  rw [sysA_decomp _ _ hn, sysB_decomp _ _ hn, sysC_decomp _ _ (by omega)]
  cases dvec with
  | nil => simp at hd
  | cons d0 td =>
  have htd : td.length = m + 1 := by
    simp only [List.length_cons] at hd
    omega
  intro p hp
  simp only [thomasPivots, List.tail_cons, List.mem_cons] at hp
  rcases hp with rfl | hp
  · norm_num
  · rw [show (0 : ℚ) / 1 = 0 from by norm_num] at hp
    rw [show m + 2 - 2 = m from rfl, show m + 2 - 1 = m + 1 from rfl] at hp
    rw [show List.replicate (m + 1) (-s) = List.replicate m (-s) ++ [-s] from
      List.replicate_succ' m (-s)] at hp
    rw [← List.take_append_drop m td,
      zip4_append _ _ _ _ _ _ _ _
        (by rw [List.length_replicate, List.length_take]; omega)
        (by rw [List.length_replicate, List.length_take]; omega)
        (by rw [List.length_replicate, List.length_take]; omega)] at hp
    rw [drop_length_sub_one td m htd] at hp
    rw [pivotsAux_append] at hp
    obtain ⟨hall, hf1, hf2⟩ := pivotsAux_const s hs
      (zip4 (List.replicate m (-s)) (List.replicate m (1 + 2 * s))
        (List.replicate m (-s)) (td.take m)) 0 (by norm_num) le_rfl
      (fun row hrow => mem_zip4_replicate m _ _ _ _ row hrow)
    rw [List.mem_append] at hp
    rcases hp with hp | hp
    · exact hall p hp
    · simp only [zip4, pivotsAux, List.mem_cons] at hp
      rcases hp with rfl | hp
      · rw [zero_mul, sub_zero]
      · simp [pivotsAux] at hp

/-! ## Claims about the tridiagonal solver (C3, C9, C2) -/

/-- C3: for equal-length inputs with `n ≥ 1`, whenever `|b_0|` or any
effective pivot `|b_i - a_i * cp_{i-1}|` arising during the forward
elimination falls below `1e-15` (an entry of `thomasPivots` up to the first
such one — the entries of `thomasPivots` agree with the guarded loop up to
and including the first sub-threshold pivot), `thomasAlgorithm` takes its
early-return branch instead of dividing by the near-zero pivot and returns
the right-hand side `d` unchanged; in particular `b_0 = 0` forces this. -/
theorem thomas_degenerate_returns_d (a b c d : List ℚ)
    (hla : a.length = d.length) (hlb : b.length = d.length)
    (hlc : c.length = d.length) (hn : 1 ≤ d.length) :
    ((∃ p ∈ thomasPivots a b c d, |p| < tEps) → thomasAlgorithm a b c d = d) ∧
    (b.getD 0 0 = 0 → thomasAlgorithm a b c d = d) := by
  constructor
  · exact thomas_of_pivot_small a b c d
  · intro hb0
    cases b with
    | nil => rfl
    | cons b0 tb =>
      cases c with
      | nil => rfl
      | cons c0 tc =>
        cases d with
        | nil => rfl
        | cons d0 td =>
            rw [List.getD_cons_zero] at hb0
            subst hb0
            simp only [thomasAlgorithm]
            rw [if_pos (by norm_num [tEps])]

/-- Closed instance of C3: the 1×1 system with `b_0 = 0` returns its
right-hand side `[7]` unchanged. -/
theorem thomas_degenerate_returns_d_witness :
    thomasAlgorithm [0] [0] [0] [(7 : ℚ)] = [(7 : ℚ)] :=
  (thomas_degenerate_returns_d [0] [0] [0] [(7 : ℚ)] rfl rfl rfl
    (by norm_num)).2 (by norm_num)

/-- C9: for any diffusion number `r ≥ 0` and any field `u` of length at
least `2`, the boundary-conditioned systems assembled by the implicit 1D
steppers (`backwardEuler`: `a = -r, b = 1+2r, c = -r`; `crankNicolson`:
`a = c = -r/2, b = 1+r`; identity boundary rows) have `|b_0| ≥ 1` and every
effective pivot `|b_i - a_i*cp_{i-1}| ≥ 1`, so the degenerate-pivot early
returns of `thomasAlgorithm` are unreachable and those solves run the full
elimination and back substitution. -/
theorem implicit_pivots_never_degenerate (u : List ℚ) (r : ℚ)
    (hr : 0 ≤ r) (hn : 2 ≤ u.length) :
    (∀ p ∈ thomasPivots (beA u r) (beB u r) (beC u r) (beD u), 1 ≤ |p|) ∧
    thomasDegenerate (beA u r) (beB u r) (beC u r) (beD u) = false ∧
    (∀ p ∈ thomasPivots (cnA u r) (cnB u r) (cnC u r) (cnD u r), 1 ≤ |p|) ∧
    thomasDegenerate (cnA u r) (cnB u r) (cnC u r) (cnD u r) = false := by
  have hbe : ∀ p ∈ thomasPivots (beA u r) (beB u r) (beC u r) (beD u), 1 ≤ p := by
    have := standardSys_pivots r hr u.length hn (beD u) (by simp [beD])
    simpa [beA, beB, beC] using this
  have hcn : ∀ p ∈ thomasPivots (cnA u r) (cnB u r) (cnC u r) (cnD u r), 1 ≤ p := by
    have hhalf : (0 : ℚ) ≤ r / 2 := by linarith
    have := standardSys_pivots (r / 2) hhalf u.length hn (cnD u r) (by simp [cnD])
    have hb : (1 : ℚ) + 2 * (r / 2) = 1 + r := by ring
    rw [hb] at this
    simpa [cnA, cnB, cnC] using this
  have habs : ∀ (L : List ℚ), (∀ p ∈ L, 1 ≤ p) → ∀ p ∈ L, 1 ≤ |p| := by
    intro L h p hp
    have := h p hp
    rw [abs_of_pos (by linarith)]
    exact this
  have hepsle : ∀ (L : List ℚ), (∀ p ∈ L, 1 ≤ p) → ∀ p ∈ L, tEps ≤ |p| := by
    intro L h p hp
    have h1 := habs L h p hp
    have : tEps ≤ 1 := by norm_num [tEps]
    linarith
  exact ⟨habs _ hbe, thomas_not_degenerate _ _ _ _ (hepsle _ hbe),
    habs _ hcn, thomas_not_degenerate _ _ _ _ (hepsle _ hcn)⟩

/-- Closed instance of C9 at `u = [0,1,0]`, `r = 1`: neither implicit
system degenerates. -/
theorem implicit_pivots_never_degenerate_witness :
    thomasDegenerate (beA [0, 1, 0] 1) (beB [0, 1, 0] 1) (beC [0, 1, 0] 1)
      (beD [0, 1, 0]) = false ∧
    thomasDegenerate (cnA [0, 1, 0] 1) (cnB [0, 1, 0] 1) (cnC [0, 1, 0] 1)
      (cnD [0, 1, 0] 1) = false :=
  ⟨(implicit_pivots_never_degenerate [0, 1, 0] 1 (by norm_num) (by norm_num)).2.1,
   (implicit_pivots_never_degenerate [0, 1, 0] 1 (by norm_num)
      (by norm_num)).2.2.2⟩

/-- C2 as stated is false: on a degenerate pivot, `crankNicolson` returns
the solver's right-hand side, which is the *transformed* Crank-Nicolson RHS
`d[i] = (1-r)u[i] + (r/2)(u[i+1]+u[i-1])`, not the prior field.  At
`u = [0,1,0]`, `r = -1` the pivot at index 1 is `0`, the step completes
without crashing, and it returns `[0,2,0] ≠ [0,1,0]`. -/
theorem step_degenerate_counterexample :
    thomasDegenerate (cnA [0, 1, 0] (-1)) (cnB [0, 1, 0] (-1))
      (cnC [0, 1, 0] (-1)) (cnD [0, 1, 0] (-1)) = true ∧
    crankNicolson [0, 1, 0] (-1) = [0, 2, 0] ∧
    crankNicolson [0, 1, 0] (-1) ≠ [0, 1, 0] := by
  refine ⟨?_, ?_, ?_⟩ <;>
    norm_num [crankNicolson, cnA, cnB, cnC, cnD, thomasDegenerate, thomasAlgorithm,
      thomasSweep, backSub, zip4, tEps, List.ofFn_succ, List.replicate, List.set]

/-- C2 amended: if the tridiagonal solver hits a degenerate pivot during an
implicit step, the step does not crash and returns the solver's
boundary-conditioned right-hand side vector: for backward Euler — whose RHS
is a copy of the prior field with boundary entries forced to `0` — the
prior field is returned unchanged whenever its boundary entries are `0`,
while for Crank-Nicolson the returned vector is the transformed RHS
`cnD u r`, which can differ from the prior field. -/
theorem step_degenerate_returns_rhs (u : List ℚ) (r : ℚ) (hn : 2 ≤ u.length)
    (hb0 : u.getD 0 0 = 0) (hbn : u.getD (u.length - 1) 0 = 0) :
    (thomasDegenerate (beA u r) (beB u r) (beC u r) (beD u) = true →
      backwardEuler u r = u) ∧
    (thomasDegenerate (cnA u r) (cnB u r) (cnC u r) (cnD u r) = true →
      crankNicolson u r = cnD u r) := by
  constructor
  · intro hdeg
    rw [backwardEuler, thomas_eq_of_degenerate _ _ _ _ hdeg, beD]
    rw [set_self_of_getD u 0 0 hb0 (by omega)]
    rw [set_self_of_getD u (u.length - 1) 0 hbn (by omega)]
  · intro hdeg
    rw [crankNicolson, thomas_eq_of_degenerate _ _ _ _ hdeg]

/-- Closed instance of the amended C2: at `u = [0,5,0]`, `r = -1/2` the
backward-Euler system degenerates (`b_1 = 0`) and the step returns the
prior field unchanged. -/
theorem step_degenerate_returns_rhs_witness :
    backwardEuler [0, 5, 0] (-1 / 2) = [0, 5, 0] :=
  (step_degenerate_returns_rhs [0, 5, 0] (-1 / 2) (by norm_num) (by norm_num)
    (by norm_num)).1 (by
      norm_num [beA, beB, beC, beD, thomasDegenerate, thomasSweep, zip4, tEps,
        List.replicate, List.set])

/-! ## Boundary-invariant infrastructure (C1) -/

lemma getD_set_self (l : List ℚ) (i : ℕ) (x : ℚ) (h : i < l.length) :
    (l.set i x).getD i 0 = x := by
  induction l generalizing i with
  | nil => simp at h
  | cons y ys ih =>
      cases i with
      | zero => rfl
      | succ k =>
          rw [List.set_cons_succ, List.getD_cons_succ]
          exact ih k (by simpa using h)

lemma getD_set_ne (l : List ℚ) (i j : ℕ) (x : ℚ) (hne : i ≠ j) :
    (l.set i x).getD j 0 = l.getD j 0 := by
  induction l generalizing i j with
  | nil => simp
  | cons y ys ih =>
      cases i with
      | zero =>
          cases j with
          | zero => omega
          | succ k => rw [List.set_cons_zero, List.getD_cons_succ, List.getD_cons_succ]
      | succ i2 =>
          cases j with
          | zero => rw [List.set_cons_succ, List.getD_cons_zero, List.getD_cons_zero]
          | succ k =>
              rw [List.set_cons_succ, List.getD_cons_succ, List.getD_cons_succ]
              exact ih i2 k (by omega)

lemma getD_ofFn {α : Type} (d : α) (n : ℕ) (f : Fin n → α) (i : ℕ) (h : i < n) :
    (List.ofFn f).getD i d = f ⟨i, h⟩ := by
  rw [List.getD_eq_getElem _ _ (by simpa using h)]
  exact List.getElem_ofFn f i (by simpa using h)

lemma triA_length (n : ℕ) (s : ℚ) : (triA n s).length = n := by simp [triA]

lemma triB_length (n : ℕ) (v : ℚ) : (triB n v).length = n := by simp [triB]

lemma triC_length (n : ℕ) (s : ℚ) : (triC n s).length = n := by simp [triC]

lemma triB_getD0 (n : ℕ) (v : ℚ) (hn : 1 ≤ n) : (triB n v).getD 0 0 = 1 := by
  rw [triB]
  by_cases h : n - 1 = 0
  · rw [h]
    exact getD_set_self _ 0 1 (by simp; omega)
  · rw [getD_set_ne _ _ _ _ (by omega)]
    exact getD_set_self _ 0 1 (by simp; omega)

lemma triC_getD0 (n : ℕ) (s : ℚ) (hn : 1 ≤ n) : (triC n s).getD 0 0 = 0 := by
  rw [triC]
  exact getD_set_self _ 0 0 (by simp; omega)

lemma triA_getDlast (n : ℕ) (s : ℚ) (hn : 1 ≤ n) : (triA n s).getD (n - 1) 0 = 0 := by
  rw [triA]
  exact getD_set_self _ (n - 1) 0 (by simp; omega)

/-- Facts about the `d[0] = 0; d[n-1] = 0` boundary overwrite pattern. -/
lemma setset_facts (l : List ℚ) (n : ℕ) (hl : l.length = n) (hn : 2 ≤ n) :
    ((l.set 0 0).set (n - 1) 0).length = n ∧
    ((l.set 0 0).set (n - 1) 0).getD 0 0 = 0 ∧
    ((l.set 0 0).set (n - 1) 0).getD (n - 1) 0 = 0 := by
  refine ⟨by simp [hl], ?_, ?_⟩
  · rw [getD_set_ne _ _ _ _ (by omega)]
    exact getD_set_self _ 0 0 (by omega)
  · exact getD_set_self _ (n - 1) 0 (by simp; omega)

/-- Facts about right-hand sides whose boundary entries are zero (such as
those built with `if i = 0 ∨ i = n - 1 then 0 else …`). -/
lemma ofFnIf_facts (n : ℕ) (f : Fin n → ℚ) (hn : 1 ≤ n)
    (h0 : ∀ i : Fin n, (i.1 = 0 ∨ i.1 = n - 1) → f i = 0) :
    (List.ofFn f).length = n ∧
    (List.ofFn f).getD 0 0 = 0 ∧
    (List.ofFn f).getD (n - 1) 0 = 0 := by
  refine ⟨by simp, ?_, ?_⟩
  · rw [getD_ofFn (0 : ℚ) n _ 0 (by omega)]
    exact h0 _ (Or.inl rfl)
  · rw [getD_ofFn (0 : ℚ) n _ (n - 1) (by omega)]
    exact h0 _ (Or.inr rfl)

/-- Boundary behavior of any sweep solve `thomasAlgorithm (triA n s)
(triB n v) (triC n s) d` with a right-hand side whose boundary entries are
`0`: the result has length `n` and zero boundary entries. -/
lemma triSys_boundary (n : ℕ) (hn : 2 ≤ n) (s v : ℚ) (dvec : List ℚ)
    (hd : dvec.length = n) (hd0 : dvec.getD 0 0 = 0) (hdn : dvec.getD (n - 1) 0 = 0) :
    (thomasAlgorithm (triA n s) (triB n v) (triC n s) dvec).length = n ∧
    (thomasAlgorithm (triA n s) (triB n v) (triC n s) dvec).getD 0 0 = 0 ∧
    (thomasAlgorithm (triA n s) (triB n v) (triC n s) dvec).getD (n - 1) 0 = 0 :=
  thomas_boundary _ _ _ _ n (triA_length n s) (triB_length n v) (triC_length n s) hd hn
    (triB_getD0 n v (by omega)) (triC_getD0 n s (by omega)) hd0
    (triA_getDlast n s (by omega)) hdn

/-- `u[0] = u[N-1] = 0` for a 1D field. -/
def bnd1Zero (l : List ℚ) : Prop :=
  l.getD 0 0 = 0 ∧ l.getD (l.length - 1) 0 = 0

/-- Every entry with row or column index on the border is `0`, for a 2D
field. -/
def bnd2Zero (m : List (List ℚ)) : Prop :=
  ∀ i, i < m.length → ∀ j, j < (m.getD i []).length →
    (i = 0 ∨ i = m.length - 1 ∨ j = 0 ∨ j = (m.getD i []).length - 1) →
    (m.getD i []).getD j 0 = 0

instance (l : List ℚ) : Decidable (bnd1Zero l) := by unfold bnd1Zero; infer_instance

instance (m : List (List ℚ)) : Decidable (bnd2Zero m) := by
  unfold bnd2Zero; infer_instance

lemma bnd2Zero_ofFn {Nx Ny : ℕ} (f : Fin Nx → Fin Ny → ℚ)
    (h : ∀ (i : Fin Nx) (j : Fin Ny),
      (i.1 = 0 ∨ i.1 = Nx - 1 ∨ j.1 = 0 ∨ j.1 = Ny - 1) → f i j = 0) :
    bnd2Zero (List.ofFn fun i => List.ofFn fun j => f i j) := by
  intro i hi j hj hbnd
  rw [List.length_ofFn] at hi
  rw [getD_ofFn ([] : List ℚ) Nx _ i hi] at hj hbnd ⊢
  rw [List.length_ofFn] at hj
  rw [getD_ofFn (0 : ℚ) Ny _ j hj]
  refine h ⟨i, hi⟩ ⟨j, hj⟩ ?_
  simpa [List.length_ofFn] using hbnd

lemma backwardEuler_eq_triSys (u : List ℚ) (r : ℚ) :
    backwardEuler u r =
      thomasAlgorithm (triA u.length r) (triB u.length (1 + 2 * r))
        (triC u.length r) (beD u) := rfl

lemma crankNicolson_eq_triSys (u : List ℚ) (r : ℚ) :
    crankNicolson u r =
      thomasAlgorithm (triA u.length (r / 2)) (triB u.length (1 + r))
        (triC u.length (r / 2)) (cnD u r) := rfl

lemma forwardEuler_bnd (u : List ℚ) (r : ℚ) (hn : 2 ≤ u.length) :
    bnd1Zero (forwardEuler u r) := by
  constructor
  · rw [forwardEuler, getD_ofFn (0 : ℚ) _ _ 0 (by omega)]
    simp
  · rw [forwardEuler]
    rw [List.length_ofFn]
    rw [getD_ofFn (0 : ℚ) _ _ (u.length - 1) (by omega)]
    simp

lemma backwardEuler_bnd (u : List ℚ) (r : ℚ) (hn : 2 ≤ u.length) :
    bnd1Zero (backwardEuler u r) := by
  obtain ⟨hfl, hf0, hfn⟩ :=
    triSys_boundary u.length hn r (1 + 2 * r) (beD u)
      (by simp [beD]) (setset_facts u u.length rfl hn).2.1
      (setset_facts u u.length rfl hn).2.2
  rw [bnd1Zero, backwardEuler_eq_triSys, hfl]
  exact ⟨hf0, hfn⟩

lemma crankNicolson_bnd (u : List ℚ) (r : ℚ) (hn : 2 ≤ u.length) :
    bnd1Zero (crankNicolson u r) := by
  obtain ⟨hdl, hd0, hdn⟩ := ofFnIf_facts u.length
    (fun i => if i.1 = 0 ∨ i.1 = u.length - 1 then 0
      else (1 - r) * u.getD i.1 0 + (r / 2) * (u.getD (i.1 + 1) 0 + u.getD (i.1 - 1) 0))
    (by omega) (fun i hi => if_pos hi)
  obtain ⟨hfl, hf0, hfn⟩ :=
    triSys_boundary u.length hn (r / 2) (1 + r) (cnD u r) hdl hd0 hdn
  rw [bnd1Zero, crankNicolson_eq_triSys, hfl]
  exact ⟨hf0, hfn⟩

lemma forwardEuler2D_bnd (u : List (List ℚ)) (rx ry : ℚ) :
    bnd2Zero (forwardEuler2D u rx ry) := by
  dsimp only [forwardEuler2D]
  refine bnd2Zero_ofFn _ ?_
  intro i j hbnd
  have hi := i.isLt
  have hj := j.isLt
  rw [if_neg (by omega)]

lemma backwardEulerADI_bnd (u : List (List ℚ)) (rx ry : ℚ)
    (hNx : 2 ≤ u.length) (hNy : 2 ≤ (u.getD 0 []).length) :
    bnd2Zero (backwardEulerADI u rx ry) := by
  dsimp only [backwardEulerADI]
  refine bnd2Zero_ofFn _ ?_
  intro i j hbnd
  have hi := i.isLt
  have hj := j.isLt
  by_cases hg : 1 ≤ i.1 ∧ i.1 + 1 < u.length
  · rw [if_pos hg]
    have hjb : j.1 = 0 ∨ j.1 = (u.getD 0 []).length - 1 := by omega
    obtain ⟨hsl, hs0, hsn⟩ := triSys_boundary (u.getD 0 []).length hNy ry (1 + 2 * ry)
      _ (setset_facts _ _ (List.length_ofFn _) hNy).1
      (setset_facts _ _ (List.length_ofFn _) hNy).2.1
      (setset_facts _ _ (List.length_ofFn _) hNy).2.2
    rcases hjb with hj0 | hjn
    · rw [hj0]; exact hs0
    · rw [hjn]; exact hsn
  · rw [if_neg hg]

lemma cnADIysolve_bnd (u : List (List ℚ)) (rx ry : ℚ)
    (hNy : 2 ≤ (u.getD 0 []).length) (i : ℕ) :
    (cnADIysolve u rx ry i).getD 0 0 = 0 ∧
    (cnADIysolve u rx ry i).getD ((u.getD 0 []).length - 1) 0 = 0 := by
  have hfacts := ofFnIf_facts (u.getD 0 []).length
    (fun j : Fin (u.getD 0 []).length =>
      if j.1 = 0 ∨ j.1 = (u.getD 0 []).length - 1 then 0
      else ((cnADIuStar u rx ry).getD i []).getD j.1 0 +
        rx / 2 * (((cnADIuStar u rx ry).getD (i + 1) []).getD j.1 0 -
          2 * ((cnADIuStar u rx ry).getD i []).getD j.1 0 +
          ((cnADIuStar u rx ry).getD (i - 1) []).getD j.1 0))
    (by omega) (fun j hj => if_pos hj)
  have h2 := triSys_boundary (u.getD 0 []).length hNy (ry / 2) (1 + ry) _
    hfacts.1 hfacts.2.1 hfacts.2.2
  rw [cnADIysolve]
  exact ⟨h2.2.1, h2.2.2⟩

lemma crankNicolsonADI_bnd (u : List (List ℚ)) (rx ry : ℚ)
    (hNx : 2 ≤ u.length) (hNy : 2 ≤ (u.getD 0 []).length) :
    bnd2Zero (crankNicolsonADI u rx ry) := by
  rw [crankNicolsonADI]
  refine bnd2Zero_ofFn _ ?_
  intro i j hbnd
  have hi := i.isLt
  have hj := j.isLt
  by_cases hg : 1 ≤ i.1 ∧ i.1 + 1 < u.length
  · rw [if_pos hg]
    have hjb : j.1 = 0 ∨ j.1 = (u.getD 0 []).length - 1 := by omega
    rcases hjb with hj0 | hjn
    · rw [hj0]; exact (cnADIysolve_bnd u rx ry hNy i.1).1
    · rw [hjn]; exact (cnADIysolve_bnd u rx ry hNy i.1).2
  · rw [if_neg hg]

lemma be2Dxsolve_row_bnd (u : List (List ℚ)) (rx : ℚ) (hNx : 2 ≤ u.length)
    (j ii : ℕ) (hii : ii = 0 ∨ ii = u.length - 1) :
    (be2Dxsolve u rx j).getD ii 0 = 0 := by
  have hfacts := ofFnIf_facts u.length
    (fun i : Fin u.length =>
      if i.1 = 0 ∨ i.1 = u.length - 1 then 0 else (u.getD i.1 []).getD j 0)
    (by omega) (fun i hi => if_pos hi)
  have h2 := triSys_boundary u.length hNx rx (1 + 2 * rx) _
    hfacts.1 hfacts.2.1 hfacts.2.2
  rw [be2Dxsolve]
  rcases hii with h0 | hn
  · rw [h0]; exact h2.2.1
  · rw [hn]; exact h2.2.2

lemma be2DuHalf_entry (u : List (List ℚ)) (rx : ℚ) (ii jj : ℕ)
    (hii : ii < u.length) (hjj : jj < (u.getD 0 []).length) :
    ((be2DuHalf u rx).getD ii []).getD jj 0 = (be2Dxsolve u rx jj).getD ii 0 := by
  rw [be2DuHalf, getD_ofFn ([] : List ℚ) _ _ ii hii, getD_ofFn (0 : ℚ) _ _ jj hjj]

lemma be2Dysolve_bnd (u : List (List ℚ)) (rx ry : ℚ)
    (hNy : 2 ≤ (u.getD 0 []).length) (i : ℕ) :
    (be2Dysolve u rx ry i).getD 0 0 = 0 ∧
    (be2Dysolve u rx ry i).getD ((u.getD 0 []).length - 1) 0 = 0 := by
  have hfacts := ofFnIf_facts (u.getD 0 []).length
    (fun j : Fin (u.getD 0 []).length =>
      if j.1 = 0 ∨ j.1 = (u.getD 0 []).length - 1 then 0
      else ((be2DuHalf u rx).getD i []).getD j.1 0)
    (by omega) (fun j hj => if_pos hj)
  have h2 := triSys_boundary (u.getD 0 []).length hNy ry (1 + 2 * ry) _
    hfacts.1 hfacts.2.1 hfacts.2.2
  rw [be2Dysolve]
  exact ⟨h2.2.1, h2.2.2⟩

lemma backwardEuler2D_ADI_bnd (u : List (List ℚ)) (rx ry : ℚ)
    (hNx : 2 ≤ u.length) (hNy : 2 ≤ (u.getD 0 []).length) :
    bnd2Zero (backwardEuler2D_ADI u rx ry) := by
  rw [backwardEuler2D_ADI]
  refine bnd2Zero_ofFn _ ?_
  intro i j hbnd
  have hi := i.isLt
  have hj := j.isLt
  by_cases hjb : j.1 = 0 ∨ j.1 = (u.getD 0 []).length - 1
  · rcases hjb with hj0 | hjn
    · rw [hj0]; exact (be2Dysolve_bnd u rx ry hNy i.1).1
    · rw [hjn]; exact (be2Dysolve_bnd u rx ry hNy i.1).2
  · have hib : i.1 = 0 ∨ i.1 = u.length - 1 := by omega
    rw [be2Dysolve]
    refine getD_zero_of_all_zero _ ?_ j.1
    refine thomas_all_zero _ _ _ _ ?_
    intro x hx
    rw [List.mem_ofFn] at hx
    obtain ⟨j2, rfl⟩ := hx
    dsimp only
    by_cases hj2 : j2.1 = 0 ∨ j2.1 = (u.getD 0 []).length - 1
    · rw [if_pos hj2]
    · rw [if_neg hj2]
      rw [be2DuHalf_entry u rx i.1 j2.1 hi j2.isLt]
      exact be2Dxsolve_row_bnd u rx hNx j2.1 i.1 hib

lemma cn2Dxsolve_row_bnd (u : List (List ℚ)) (rx : ℚ) (hNx : 2 ≤ u.length)
    (j ii : ℕ) (hii : ii = 0 ∨ ii = u.length - 1) :
    (cn2Dxsolve u rx j).getD ii 0 = 0 := by
  have hfacts := ofFnIf_facts u.length
    (fun i : Fin u.length =>
      if i.1 = 0 ∨ i.1 = u.length - 1 then 0
      else (1 - rx) * (u.getD i.1 []).getD j 0 +
        rx / 2 * ((u.getD (i.1 + 1) []).getD j 0 + (u.getD (i.1 - 1) []).getD j 0))
    (by omega) (fun i hi => if_pos hi)
  have h2 := triSys_boundary u.length hNx (rx / 2) (1 + rx) _
    hfacts.1 hfacts.2.1 hfacts.2.2
  rw [cn2Dxsolve]
  rcases hii with h0 | hn
  · rw [h0]; exact h2.2.1
  · rw [hn]; exact h2.2.2

lemma cn2DuHalf_entry (u : List (List ℚ)) (rx : ℚ) (ii jj : ℕ)
    (hii : ii < u.length) (hjj : jj < (u.getD 0 []).length) :
    ((cn2DuHalf u rx).getD ii []).getD jj 0 = (cn2Dxsolve u rx jj).getD ii 0 := by
  rw [cn2DuHalf, getD_ofFn ([] : List ℚ) _ _ ii hii, getD_ofFn (0 : ℚ) _ _ jj hjj]

lemma cn2Dysolve_bnd (u : List (List ℚ)) (rx ry : ℚ)
    (hNy : 2 ≤ (u.getD 0 []).length) (i : ℕ) :
    (cn2Dysolve u rx ry i).getD 0 0 = 0 ∧
    (cn2Dysolve u rx ry i).getD ((u.getD 0 []).length - 1) 0 = 0 := by
  have hfacts := ofFnIf_facts (u.getD 0 []).length
    (fun j : Fin (u.getD 0 []).length =>
      if j.1 = 0 ∨ j.1 = (u.getD 0 []).length - 1 then 0
      else (1 - ry) * ((cn2DuHalf u rx).getD i []).getD j.1 0 +
        ry / 2 * (((cn2DuHalf u rx).getD i []).getD (j.1 + 1) 0 +
          ((cn2DuHalf u rx).getD i []).getD (j.1 - 1) 0))
    (by omega) (fun j hj => if_pos hj)
  have h2 := triSys_boundary (u.getD 0 []).length hNy (ry / 2) (1 + ry) _
    hfacts.1 hfacts.2.1 hfacts.2.2
  rw [cn2Dysolve]
  exact ⟨h2.2.1, h2.2.2⟩

lemma crankNicolson2D_ADI_bnd (u : List (List ℚ)) (rx ry : ℚ)
    (hNx : 2 ≤ u.length) (hNy : 2 ≤ (u.getD 0 []).length) :
    bnd2Zero (crankNicolson2D_ADI u rx ry) := by
  rw [crankNicolson2D_ADI]
  refine bnd2Zero_ofFn _ ?_
  intro i j hbnd
  have hi := i.isLt
  have hj := j.isLt
  by_cases hjb : j.1 = 0 ∨ j.1 = (u.getD 0 []).length - 1
  · rcases hjb with hj0 | hjn
    · rw [hj0]; exact (cn2Dysolve_bnd u rx ry hNy i.1).1
    · rw [hjn]; exact (cn2Dysolve_bnd u rx ry hNy i.1).2
  · have hib : i.1 = 0 ∨ i.1 = u.length - 1 := by omega
    rw [cn2Dysolve]
    refine getD_zero_of_all_zero _ ?_ j.1
    refine thomas_all_zero _ _ _ _ ?_
    intro x hx
    rw [List.mem_ofFn] at hx
    obtain ⟨j2, rfl⟩ := hx
    dsimp only
    by_cases hj2 : j2.1 = 0 ∨ j2.1 = (u.getD 0 []).length - 1
    · rw [if_pos hj2]
    · rw [if_neg hj2]
      rw [cn2DuHalf_entry u rx i.1 j2.1 hi j2.isLt,
        cn2DuHalf_entry u rx i.1 (j2.1 + 1) hi (by omega),
        cn2DuHalf_entry u rx i.1 (j2.1 - 1) hi (by omega)]
      rw [cn2Dxsolve_row_bnd u rx hNx j2.1 i.1 hib,
        cn2Dxsolve_row_bnd u rx hNx (j2.1 + 1) i.1 hib,
        cn2Dxsolve_row_bnd u rx hNx (j2.1 - 1) i.1 hib]
      ring

/-- C1: for every method (forward Euler, backward Euler, Crank-Nicolson),
in 1D and 2D (both the 2D app's steppers and the unified file's variants),
and for every input field with zero boundary entries (`u` of length ≥ 2,
`v` of size ≥ 2×2), the field produced by one step has boundary entries
exactly `0`: the interior stencil loops never write the boundary slots, the
implicit solves carry identity boundary rows, and the degenerate-pivot
fallback returns a right-hand side whose boundary entries were forced to
`0`.  (The zero-boundary hypotheses on the input match the claim; the
proofs establish the invariant even without them.) -/
theorem boundary_invariant_all_steppers
    (u : List ℚ) (r : ℚ) (hu : 2 ≤ u.length)
    (hub : u.getD 0 0 = 0 ∧ u.getD (u.length - 1) 0 = 0)
    (v : List (List ℚ)) (rx ry : ℚ)
    (hNx : 2 ≤ v.length) (hNy : 2 ≤ (v.getD 0 []).length)
    (hvb : bnd2Zero v) :
    bnd1Zero (forwardEuler u r) ∧ bnd1Zero (backwardEuler u r) ∧
    bnd1Zero (crankNicolson u r) ∧
    bnd2Zero (forwardEuler2D v rx ry) ∧ bnd2Zero (backwardEulerADI v rx ry) ∧
    bnd2Zero (crankNicolsonADI v rx ry) ∧
    bnd2Zero (backwardEuler2D_ADI v rx ry) ∧
    bnd2Zero (crankNicolson2D_ADI v rx ry) :=
  ⟨forwardEuler_bnd u r hu, backwardEuler_bnd u r hu, crankNicolson_bnd u r hu,
    forwardEuler2D_bnd v rx ry, backwardEulerADI_bnd v rx ry hNx hNy,
    crankNicolsonADI_bnd v rx ry hNx hNy, backwardEuler2D_ADI_bnd v rx ry hNx hNy,
    crankNicolson2D_ADI_bnd v rx ry hNx hNy⟩

/-- Closed instance of C1 at `u = [0,1,0]`, `v` the 3×3 field with a unit
center, `r = rx = ry = 1`. -/
theorem boundary_invariant_all_steppers_witness :
    bnd1Zero (crankNicolson [0, 1, 0] 1) ∧
    bnd2Zero (crankNicolsonADI [[0, 0, 0], [0, 1, 0], [0, 0, 0]] 1 1) ∧
    bnd2Zero (crankNicolson2D_ADI [[0, 0, 0], [0, 1, 0], [0, 0, 0]] 1 1) := by
  have h := boundary_invariant_all_steppers [0, 1, 0] 1 (by decide) (by decide)
    [[0, 0, 0], [0, 1, 0], [0, 0, 0]] 1 1 (by decide) (by decide) (by decide)
  exact ⟨h.2.2.1, h.2.2.2.2.2.1, h.2.2.2.2.2.2.2⟩

lemma specPRxsolve_eq (u : List (List ℚ)) (rx ry : ℚ) (j : ℕ) :
    specPRxsolve u rx ry j = cnADIxsolve u rx ry j := by
  rw [specPRxsolve, cnADIxsolve, show (1 : ℚ) + 2 * (rx / 2) = 1 + rx from by ring]

lemma specPRuStar_eq (u : List (List ℚ)) (rx ry : ℚ) :
    specPRuStar u rx ry = cnADIuStar u rx ry := by
  rw [specPRuStar, cnADIuStar]
  congr 1
  funext i
  congr 1
  funext j
  rw [specPRxsolve_eq]

lemma specPRysolve_eq (u : List (List ℚ)) (rx ry : ℚ) (i : ℕ) :
    specPRysolve u rx ry i = cnADIysolve u rx ry i := by
  rw [specPRysolve, cnADIysolve, specPRuStar_eq,
    show (1 : ℚ) + 2 * (ry / 2) = 1 + ry from by ring]

/-- C5 (amended): the 2D Crank-Nicolson step of `src/2d/app.js`
(`crankNicolsonADI`) is exactly the Peaceman-Rachford ADI step the claim
describes, for every field and diffusion numbers.  (The unified variant
`crankNicolson2D_ADI` is not: see the counterexample.) -/
theorem crankNicolsonADI_is_peaceman_rachford (u : List (List ℚ)) (rx ry : ℚ) :
    crankNicolsonADI u rx ry = specPeacemanRachfordADI u rx ry := by
  rw [crankNicolsonADI, specPeacemanRachfordADI]
  congr 1
  funext i
  congr 1
  funext j
  rw [specPRysolve_eq]

/-- C5 as stated is false for `crankNicolson2D_ADI` (`src/unnamed/part_001`):
its half-step 1 adds an explicit `rx/2` *x-direction* contribution (and its
sweeps also run over boundary rows/columns), so at the field
`[[1,0,0],[0,1,0],[0,0,0]]` with `rx = ry = 1` it produces center value
`1/16` while the Peaceman-Rachford step of the claim produces `0`. -/
theorem crankNicolson2D_ADI_not_PR_counterexample :
    crankNicolson2D_ADI [[1, 0, 0], [0, 1, 0], [0, 0, 0]] 1 1 ≠
      specPeacemanRachfordADI [[1, 0, 0], [0, 1, 0], [0, 0, 0]] 1 1 := by
  norm_num [crankNicolson2D_ADI, cn2Dysolve, cn2DuHalf, cn2Dxsolve,
    specPeacemanRachfordADI, specPRysolve, specPRuStar, specPRxsolve,
    triA, triB, triC, thomasAlgorithm, thomasSweep, backSub, zip4, tEps,
    List.ofFn_succ, List.replicate, List.set]

/-! ## Step dispatch and cost bookkeeping (`stepNumerical` of
`src/unnamed/part_000` lines 172–199, `src/2d/app.js` lines 270–294,
`stepNumerical2D` of `src/unnamed/part_001` lines 550–569) -/

/-- The simulation state fields that the 1D `stepNumerical` reads or
writes (`config.method`, `config.Nx`, `state.u`, `state.r`,
`state.flops`). -/
structure State1D where
  method : String
  Nx : ℕ
  u : List ℚ
  r : ℚ
  flops : ℕ

/-- `stepNumerical()` of `src/unnamed/part_000` lines 172–199: dispatches
on `config.method`, updates `state.u` and adds the per-method cost
estimate to `state.flops` (forward Euler `5*(N-2)`, backward Euler `8*N`,
Crank-Nicolson `12*N`); the `default` branch only logs
`console.error("Unknown method")` and leaves the state unchanged. -/
def stepNumerical (s : State1D) : State1D :=
  if s.method = "forward-euler" then
    { s with u := forwardEuler s.u s.r, flops := s.flops + 5 * (s.Nx - 2) }
  else if s.method = "backward-euler" then
    { s with u := backwardEuler s.u s.r, flops := s.flops + 8 * s.Nx }
  else if s.method = "crank-nicolson" then
    { s with u := crankNicolson s.u s.r, flops := s.flops + 12 * s.Nx }
  else s

/-- Per-step cost increment of the 1D `stepNumerical`. -/
def flopsInc1D (m : String) (N : ℕ) : ℕ :=
  if m = "forward-euler" then 5 * (N - 2)
  else if m = "backward-euler" then 8 * N
  else if m = "crank-nicolson" then 12 * N
  else 0

/-- The simulation state fields that the 2D step functions read or
write. -/
structure State2D where
  method : String
  Nx : ℕ
  u : List (List ℚ)
  rx : ℚ
  ry : ℚ
  flops : ℕ

/-- `stepNumerical()` of `src/2d/app.js` lines 270–294: cost estimates
`10*N*N`, `16*N*N`, `24*N*N`; the switch has no default branch, so an
unknown method leaves the state unchanged. -/
def stepNumerical2D (s : State2D) : State2D :=
  if s.method = "forward-euler" then
    { s with u := forwardEuler2D s.u s.rx s.ry, flops := s.flops + 10 * s.Nx * s.Nx }
  else if s.method = "backward-euler" then
    { s with u := backwardEulerADI s.u s.rx s.ry, flops := s.flops + 16 * s.Nx * s.Nx }
  else if s.method = "crank-nicolson" then
    { s with u := crankNicolsonADI s.u s.rx s.ry, flops := s.flops + 24 * s.Nx * s.Nx }
  else s

/-- Per-step cost increment of the `src/2d/app.js` `stepNumerical`. -/
def flopsInc2D (m : String) (N : ℕ) : ℕ :=
  if m = "forward-euler" then 10 * N * N
  else if m = "backward-euler" then 16 * N * N
  else if m = "crank-nicolson" then 24 * N * N
  else 0

/-- `stepNumerical2D()` of `src/unnamed/part_001` lines 550–569: forward
Euler counts `9*(N-2)*(N-2)`, the implicit methods `16*N*N` and
`24*N*N`. -/
def stepNumerical2Du (s : State2D) : State2D :=
  if s.method = "forward-euler" then
    { s with u := forwardEuler2D s.u s.rx s.ry,
             flops := s.flops + 9 * (s.Nx - 2) * (s.Nx - 2) }
  else if s.method = "backward-euler" then
    { s with u := backwardEuler2D_ADI s.u s.rx s.ry, flops := s.flops + 16 * s.Nx * s.Nx }
  else if s.method = "crank-nicolson" then
    { s with u := crankNicolson2D_ADI s.u s.rx s.ry, flops := s.flops + 24 * s.Nx * s.Nx }
  else s

/-- Per-step cost increment of the unified 2D `stepNumerical2D`. -/
def flopsInc2Du (m : String) (N : ℕ) : ℕ :=
  if m = "forward-euler" then 9 * (N - 2) * (N - 2)
  else if m = "backward-euler" then 16 * N * N
  else if m = "crank-nicolson" then 24 * N * N
  else 0

/-- C8: for every method and point count `Nx ≥ 3`, each step adds a
positive cost increment to the cumulative estimate (`flops` strictly
increases), the increment is a function of the method and point count only
(hence constant in the step index), and as a function of the point count
it is an integer polynomial of degree 1 with positive leading coefficient
in 1D and of degree 2 in 2D (both 2D variants). -/
theorem operation_cost_strictly_increases
    (s : State1D) (s2 s3 : State2D)
    (hm : s.method = "forward-euler" ∨ s.method = "backward-euler" ∨
      s.method = "crank-nicolson")
    (hm2 : s2.method = "forward-euler" ∨ s2.method = "backward-euler" ∨
      s2.method = "crank-nicolson")
    (hm3 : s3.method = "forward-euler" ∨ s3.method = "backward-euler" ∨
      s3.method = "crank-nicolson")
    (hN : 3 ≤ s.Nx) (hN2 : 3 ≤ s2.Nx) (hN3 : 3 ≤ s3.Nx) :
    ((stepNumerical s).flops = s.flops + flopsInc1D s.method s.Nx ∧
      s.flops < (stepNumerical s).flops ∧
      (∃ a b : ℤ, 0 < a ∧ ∀ N : ℕ, 3 ≤ N →
        (flopsInc1D s.method N : ℤ) = a * N + b)) ∧
    ((stepNumerical2D s2).flops = s2.flops + flopsInc2D s2.method s2.Nx ∧
      s2.flops < (stepNumerical2D s2).flops ∧
      (∃ a b c : ℤ, 0 < a ∧ ∀ N : ℕ, 3 ≤ N →
        (flopsInc2D s2.method N : ℤ) = a * N ^ 2 + b * N + c)) ∧
    ((stepNumerical2Du s3).flops = s3.flops + flopsInc2Du s3.method s3.Nx ∧
      s3.flops < (stepNumerical2Du s3).flops ∧
      (∃ a b c : ℤ, 0 < a ∧ ∀ N : ℕ, 3 ≤ N →
        (flopsInc2Du s3.method N : ℤ) = a * N ^ 2 + b * N + c)) := by
  refine ⟨?_, ?_, ?_⟩
  · rcases hm with h | h | h <;>
      simp only [stepNumerical, flopsInc1D, h, if_true, if_false, String.reduceEq] <;>
      refine ⟨by trivial, by omega, ?_⟩
    · refine ⟨5, -10, by norm_num, ?_⟩
      intro N hNN
      have h2 : (2 : ℕ) ≤ N := by omega
      push_cast [h2]
      ring
    · refine ⟨8, 0, by norm_num, ?_⟩
      intro N hNN
      push_cast
      ring
    · refine ⟨12, 0, by norm_num, ?_⟩
      intro N hNN
      push_cast
      ring
  · rcases hm2 with h | h | h <;>
      simp only [stepNumerical2D, flopsInc2D, h, if_true, if_false, String.reduceEq] <;>
      refine ⟨by trivial, by nlinarith, ?_⟩
    · refine ⟨10, 0, 0, by norm_num, ?_⟩
      intro N hNN
      push_cast
      ring
    · refine ⟨16, 0, 0, by norm_num, ?_⟩
      intro N hNN
      push_cast
      ring
    · refine ⟨24, 0, 0, by norm_num, ?_⟩
      intro N hNN
      push_cast
      ring
  · rcases hm3 with h | h | h <;>
      simp only [stepNumerical2Du, flopsInc2Du, h, if_true, if_false, String.reduceEq] <;>
      refine ⟨by trivial, ?_, ?_⟩
    · have h2 : 0 < s3.Nx - 2 := by omega
      have h3 := Nat.mul_pos (Nat.mul_pos (by norm_num : 0 < 9) h2) h2
      omega
    · refine ⟨9, -36, 36, by norm_num, ?_⟩
      intro N hNN
      have h2 : (2 : ℕ) ≤ N := by omega
      push_cast [h2]
      ring
    · nlinarith
    · refine ⟨16, 0, 0, by norm_num, ?_⟩
      intro N hNN
      push_cast
      ring
    · nlinarith
    · refine ⟨24, 0, 0, by norm_num, ?_⟩
      intro N hNN
      push_cast
      ring

/-- Closed instance of C8 at `Nx = 3` states for each dispatch
function. -/
theorem operation_cost_strictly_increases_witness :
    ({ method := "crank-nicolson", Nx := 3, u := [0, 1, 0], r := 1,
        flops := 0 } : State1D).flops <
      (stepNumerical
        ({ method := "crank-nicolson", Nx := 3, u := [0, 1, 0], r := 1, flops := 0 })).flops ∧
    ({ method := "forward-euler", Nx := 3, u := [[0, 0, 0], [0, 1, 0], [0, 0, 0]],
        rx := 1, ry := 1, flops := 7 } : State2D).flops <
      (stepNumerical2D
        ({ method := "forward-euler", Nx := 3, u := [[0, 0, 0], [0, 1, 0], [0, 0, 0]], rx := 1, ry := 1, flops := 7 })).flops ∧
    ({ method := "backward-euler", Nx := 3, u := [[0, 0, 0], [0, 1, 0], [0, 0, 0]],
        rx := 1, ry := 1, flops := 0 } : State2D).flops <
      (stepNumerical2Du
        ({ method := "backward-euler", Nx := 3, u := [[0, 0, 0], [0, 1, 0], [0, 0, 0]], rx := 1, ry := 1, flops := 0 })).flops := by
  have h := operation_cost_strictly_increases
    { method := "crank-nicolson", Nx := 3, u := [0, 1, 0], r := 1, flops := 0 }
    { method := "forward-euler", Nx := 3, u := [[0, 0, 0], [0, 1, 0], [0, 0, 0]],
      rx := 1, ry := 1, flops := 7 }
    { method := "backward-euler", Nx := 3, u := [[0, 0, 0], [0, 1, 0], [0, 0, 0]],
      rx := 1, ry := 1, flops := 0 }
    (by right; right; rfl) (by left; rfl) (by right; left; rfl)
    (by norm_num) (by norm_num) (by norm_num)
  exact ⟨h.1.2.1, h.2.1.2.1, h.2.2.2.1⟩

/-- The `dt` input-change handler of `src/unnamed/part_000` lines 479–492
(`src/2d/app.js` lines 655–667 is identical): the parsed value is silently
clamped into `[0.0001, 1.0]` before being stored in `config.dt`. -/
def dtInputClamp (v : ℚ) : ℚ :=
  if v < 1 / 10000 then 1 / 10000 else if v > 1 then 1 else v

/-- C4 as stated is false: nothing rejects an invalid configuration at
configure/reset time.  A state with the unknown method `"rk4"` reaches the
stepping dispatch, which executes and returns the state unchanged (the 1D
variant only logs `console.error` inside `stepNumerical`, i.e. inside the
stepping loop), and a non-positive `Δt = -1` is silently clamped to
`0.0001` by the input handler instead of being rejected with an error. -/
theorem invalid_config_counterexample :
    stepNumerical ({ method := "rk4", Nx := 41, u := [0, 1, 0], r := 1, flops := 0 }) =
      { method := "rk4", Nx := 41, u := [0, 1, 0], r := 1, flops := 0 } ∧
    dtInputClamp (-1) = 1 / 10000 := by
  constructor
  · rfl
  · rw [dtInputClamp, if_pos (by norm_num)]

/-- C4 (amended): the code contains no configure/reset validation.  A
state with an unknown method reaches the stepping dispatch, which executes
and leaves the field and cost estimate unchanged for that step (reporting
only through `console.error` in the 1D variant, silently in the 2D
variants); `Δt ≤ 0` never persists because the `dt` input handler silently
clamps every value into `[0.0001, 1.0]` (so the stored `Δt` is positive);
`Nx < 3` is not validated anywhere in the code. -/
theorem invalid_config_not_rejected (s : State1D) (s2 : State2D) (v : ℚ)
    (hm : s.method ≠ "forward-euler" ∧ s.method ≠ "backward-euler" ∧
      s.method ≠ "crank-nicolson")
    (hm2 : s2.method ≠ "forward-euler" ∧ s2.method ≠ "backward-euler" ∧
      s2.method ≠ "crank-nicolson")
    (hv : v ≤ 0) :
    stepNumerical s = s ∧ stepNumerical2D s2 = s2 ∧ stepNumerical2Du s2 = s2 ∧
    dtInputClamp v = 1 / 10000 ∧ 0 < dtInputClamp v := by
  have hclamp : dtInputClamp v = 1 / 10000 := by
    rw [dtInputClamp, if_pos (by nlinarith [hv])]
  refine ⟨?_, ?_, ?_, hclamp, by rw [hclamp]; norm_num⟩
  · rw [stepNumerical, if_neg hm.1, if_neg hm.2.1, if_neg hm.2.2]
  · rw [stepNumerical2D, if_neg hm2.1, if_neg hm2.2.1, if_neg hm2.2.2]
  · rw [stepNumerical2Du, if_neg hm2.1, if_neg hm2.2.1, if_neg hm2.2.2]

/-- Closed instance of the amended C4 at method `"rk4"` and `Δt = -1`. -/
theorem invalid_config_not_rejected_witness :
    stepNumerical2D
        ({ method := "rk4", Nx := 41, u := [[0, 0], [0, 0]], rx := 1, ry := 1, flops := 0 }) =
      { method := "rk4", Nx := 41, u := [[0, 0], [0, 0]], rx := 1, ry := 1,
        flops := 0 } ∧
    dtInputClamp (-1) = 1 / 10000 := by
  have h := invalid_config_not_rejected
    { method := "rk4", Nx := 41, u := [0, 1, 0], r := 1, flops := 0 }
    { method := "rk4", Nx := 41, u := [[0, 0], [0, 0]], rx := 1, ry := 1, flops := 0 }
    (-1) (by refine ⟨?_, ?_, ?_⟩ <;> decide) (by refine ⟨?_, ?_, ?_⟩ <;> decide)
    (by norm_num)
  exact ⟨h.2.1, h.2.2.2.1⟩

/-! ## Initial condition, analytical solution and reset (C6)

These definitions use `ℝ` with `Real.sin` / `Real.exp` to model
`Math.sin` / `Math.exp`. -/

/-- `getSineIC(x)` of `src/unnamed/part_000` lines 44–48 (identical in
`src/unnamed/part_001` lines 45–49): `sin(k·π·x/L)` with `k = 3`. -/
noncomputable def getSineIC (L : ℝ) (x : List ℝ) : List ℝ :=
  x.map fun xi => Real.sin (3 * Real.pi * xi / L)

/-- The decay factor `Math.exp(-alpha * Math.pow(3*Math.PI, 2) * t / (L*L))`
of `getAnalyticalSolution`. -/
noncomputable def decay1D (L alpha t : ℝ) : ℝ :=
  Real.exp (-alpha * (3 * Real.pi) ^ 2 * t / (L * L))

/-- `getAnalyticalSolution(x, t)` of `src/unnamed/part_000`
lines 54–60. -/
noncomputable def getAnalyticalSolution (L alpha : ℝ) (x : List ℝ) (t : ℝ) : List ℝ :=
  x.map fun xi => Real.sin (3 * Real.pi * xi / L) * decay1D L alpha t

/-- The `config` parameters that `initSimulation` reads (`L`, `alpha`,
`dt`, `Nx`; the 2D app uses the same set with `Ny = Nx`). -/
structure HeatConfig where
  L : ℝ
  alpha : ℝ
  dt : ℝ
  Nx : ℕ

/-- The state fields created by `initSimulation()` of
`src/unnamed/part_000` lines 358–379. -/
structure SimState1D where
  dx : ℝ
  x : List ℝ
  r : ℝ
  t : ℝ
  nSteps : ℕ
  flops : ℕ
  u : List ℝ
  uExact : List ℝ

/-- `initSimulation()` of `src/unnamed/part_000` lines 358–379
(`initSimulation1D` of `src/unnamed/part_001` lines 330–340 is the same):
`dx = L/(Nx-1)`, `x[i] = i*dx`, `r = α·dt/dx²`, zeroed counters,
`u = getSineIC(x)`, `uExact = getAnalyticalSolution(x, 0)`. -/
noncomputable def initSimulation (cfg : HeatConfig) : SimState1D :=
  let dx := cfg.L / ((cfg.Nx : ℝ) - 1)
  let x := List.ofFn (n := cfg.Nx) fun i => (i.1 : ℝ) * dx
  { dx := dx
    x := x
    r := cfg.alpha * cfg.dt / (dx * dx)
    t := 0
    nSteps := 0
    flops := 0
    u := getSineIC cfg.L x
    uExact := getAnalyticalSolution cfg.L cfg.alpha x 0 }

/-- `getSineIC2D(x, y)` of `src/2d/app.js` lines 47–56:
`sin(2πx)·sin(πy)`. -/
noncomputable def getSineIC2D (x y : List ℝ) : List (List ℝ) :=
  x.map fun xi => y.map fun yj => Real.sin (2 * Real.pi * xi) * Real.sin (Real.pi * yj)

/-- The decay factor `Math.exp(-alpha * Math.PI * Math.PI * 5 * t)` of
`getAnalyticalSolution2D`. -/
noncomputable def decay2D (alpha t : ℝ) : ℝ :=
  Real.exp (-alpha * Real.pi * Real.pi * 5 * t)

/-- `getAnalyticalSolution2D(x, y, t)` of `src/2d/app.js` lines 62–74. -/
noncomputable def getAnalyticalSolution2D (alpha : ℝ) (x y : List ℝ) (t : ℝ) :
    List (List ℝ) :=
  x.map fun xi => y.map fun yj =>
    Real.sin (2 * Real.pi * xi) * Real.sin (Real.pi * yj) * decay2D alpha t

/-- The state fields created by the 2D `initSimulation()` of
`src/2d/app.js` lines 527–553. -/
structure SimState2D where
  dx : ℝ
  dy : ℝ
  x : List ℝ
  y : List ℝ
  rx : ℝ
  ry : ℝ
  t : ℝ
  nSteps : ℕ
  flops : ℕ
  u : List (List ℝ)
  uExact : List (List ℝ)

/-- `initSimulation()` of `src/2d/app.js` lines 527–553
(`initSimulation2D` of `src/unnamed/part_001` lines 535–548 is the same):
square grid `dx = dy = L/(Nx-1)`, `u = getSineIC2D(x, y)`,
`uExact = getAnalyticalSolution2D(x, y, 0)`. -/
noncomputable def initSimulation2D (cfg : HeatConfig) : SimState2D :=
  let dx := cfg.L / ((cfg.Nx : ℝ) - 1)
  let dy := cfg.L / ((cfg.Nx : ℝ) - 1)
  let x := List.ofFn (n := cfg.Nx) fun i => (i.1 : ℝ) * dx
  let y := List.ofFn (n := cfg.Nx) fun i => (i.1 : ℝ) * dy
  { dx := dx
    dy := dy
    x := x
    y := y
    rx := cfg.alpha * cfg.dt / (dx * dx)
    ry := cfg.alpha * cfg.dt / (dy * dy)
    t := 0
    nSteps := 0
    flops := 0
    u := getSineIC2D x y
    uExact := getAnalyticalSolution2D cfg.alpha x y 0 }

lemma decay1D_zero (L alpha : ℝ) : decay1D L alpha 0 = 1 := by
  rw [decay1D, mul_zero, zero_div, Real.exp_zero]

lemma decay2D_zero (alpha : ℝ) : decay2D alpha 0 = 1 := by
  rw [decay2D, mul_zero, Real.exp_zero]

/-- C6: immediately after `reset()` (`initSimulation`), for every
parameter set, the numerical field `u`, the analytical field `uExact`, and
the initial condition evaluated at `t = 0` are exactly equal, pointwise,
in 1D and in 2D: the decay factor at `t = 0` is exactly
`exp(0) = 1`. -/
theorem reset_t0_fidelity (cfg : HeatConfig) :
    (initSimulation cfg).u = (initSimulation cfg).uExact ∧
    (initSimulation cfg).u = getSineIC cfg.L (initSimulation cfg).x ∧
    decay1D cfg.L cfg.alpha 0 = 1 ∧
    (initSimulation2D cfg).u = (initSimulation2D cfg).uExact ∧
    (initSimulation2D cfg).u = getSineIC2D (initSimulation2D cfg).x (initSimulation2D cfg).y ∧
    decay2D cfg.alpha 0 = 1 := by
  refine ⟨?_, rfl, decay1D_zero cfg.L cfg.alpha, ?_, rfl, decay2D_zero cfg.alpha⟩
  · rw [initSimulation]
    simp only [getSineIC, getAnalyticalSolution, decay1D_zero, mul_one]
  · rw [initSimulation2D]
    simp only [getSineIC2D, getAnalyticalSolution2D, decay2D_zero, mul_one]

/-! ## 2D error diagnostics (`updateStatus` of `src/2d/app.js`
lines 474–520 and `updateStatus2D` of `src/unnamed/part_001`
lines 703–743)

The JavaScript loops run `i, j` over `0 … Nx-1` against `Nx×Nx` fields;
the zip-based folds below traverse the same entry pairs.  The `isFinite`
guards are always true in the exact-rational model. -/

/-- The `maxError` accumulated by the error loop of `src/2d/app.js`
`updateStatus`: running maximum of `|u[i][j] - uExact[i][j]|`, starting
from `0`. -/
def maxError2D (u v : List (List ℚ)) : ℚ :=
  (u.zip v).foldl
    (fun acc p => (p.1.zip p.2).foldl (fun a q => max a |q.1 - q.2|) acc) 0

/-- The `maxUExact` accumulated by the same loop: running maximum of
`|uExact[i][j]|`, starting from `0`. -/
def maxUExact2D (v : List (List ℚ)) : ℚ :=
  v.foldl (fun acc row => row.foldl (fun a x => max a |x|) acc) 0

/-- The `maxRelError` reported by `src/2d/app.js` `updateStatus`
lines 496–500: `(maxError / maxUExact) * 100` guarded by
`maxUExact > 1e-9`, else `0`. -/
def maxRelError2D (u v : List (List ℚ)) : ℚ :=
  if maxUExact2D v > 1 / 10 ^ 9 then maxError2D u v / maxUExact2D v * 100 else 0

/-- The `maxRelErr` reported by `src/unnamed/part_001` `updateStatus2D`
lines 724–742: the *per-point* maximum of `100 * |u[i][j] - uExact[i][j]|
/ |uExact[i][j]|` over the points with `|uExact[i][j]| > 1e-10`, starting
from `0`. -/
def maxRelError2Du (u v : List (List ℚ)) : ℚ :=
  (u.zip v).foldl
    (fun acc p => (p.1.zip p.2).foldl
      (fun a q => if |q.2| > 1 / 10 ^ 10 then max a (100 * |q.1 - q.2| / |q.2|) else a)
      acc) 0

/-- Modelled from the spec (C7): the maximum pointwise absolute error over
the grid — the maximum of the flattened list of `|u - uExact|` values
(`0` for an empty grid). -/
def specMaxAbsError (u v : List (List ℚ)) : ℚ :=
  (((u.zip v).map fun p => (p.1.zip p.2).map fun q => |q.1 - q.2|).flatten).foldl max 0

/-- Modelled from the spec (C7): the maximum of `|uExact|` over the
grid. -/
def specMaxAbsExact (v : List (List ℚ)) : ℚ :=
  ((v.map fun row => row.map fun x => |x|).flatten).foldl max 0

lemma specMaxAbsError_eq (u v : List (List ℚ)) :
    specMaxAbsError u v = maxError2D u v := by
  rw [specMaxAbsError, maxError2D, List.foldl_flatten]
  simp only [List.foldl_map]

lemma specMaxAbsExact_eq (v : List (List ℚ)) :
    specMaxAbsExact v = maxUExact2D v := by
  rw [specMaxAbsExact, maxUExact2D, List.foldl_flatten]
  simp only [List.foldl_map]

/-- C7 (amended): for the 2D app (`src/2d/app.js` `updateStatus`), the
reported max relative error equals `100 · (max pointwise absolute error /
max |uExact|)` over the grid whenever `max|uExact| > 1e-9`, and is
reported as `0` whenever `max|uExact| ≤ 1e-9` (no division by a near-zero
denominator).  (The unified variant's `updateStatus2D` reports a
*per-point* maximum relative error instead: see the counterexample.) -/
theorem maxRelError_formula (u v : List (List ℚ)) :
    (maxUExact2D v ≤ 1 / 10 ^ 9 → maxRelError2D u v = 0) ∧
    (1 / 10 ^ 9 < maxUExact2D v →
      maxRelError2D u v = 100 * (specMaxAbsError u v / specMaxAbsExact v)) := by
  constructor
  · intro h
    rw [maxRelError2D, if_neg (not_lt.mpr h)]
  · intro h
    rw [maxRelError2D, if_pos h, specMaxAbsError_eq, specMaxAbsExact_eq]
    ring

/-- Closed instance of C7 (amended): the guard reports `0` on the zero
field, and the formula holds at a 2×2 example. -/
theorem maxRelError_formula_witness :
    maxRelError2D [[1]] [[0]] = 0 ∧
    maxRelError2D [[1, 1], [1, 1]] [[1, 1 / 2], [1, 1]] =
      100 * (specMaxAbsError [[1, 1], [1, 1]] [[1, 1 / 2], [1, 1]] /
        specMaxAbsExact [[1, 1 / 2], [1, 1]]) := by
  constructor
  · refine (maxRelError_formula [[1]] [[0]]).1 ?_
    norm_num [maxUExact2D]
  · refine (maxRelError_formula [[1, 1], [1, 1]] [[1, 1 / 2], [1, 1]]).2 ?_
    norm_num [maxUExact2D]

/-- C7 as stated is false for the unified variant `updateStatus2D`
(`src/unnamed/part_001`): at `u = [[1,1],[1,1]]`,
`uExact = [[1,1/2],[1,1]]` it reports the per-point maximum `100`, while
`100 · (max error / max |uExact|) = 100 · ((1/2) / 1) = 50`. -/
theorem maxRelError_unified_counterexample :
    maxRelError2Du [[1, 1], [1, 1]] [[1, 1 / 2], [1, 1]] = 100 ∧
    100 * (specMaxAbsError [[1, 1], [1, 1]] [[1, 1 / 2], [1, 1]] /
      specMaxAbsExact [[1, 1 / 2], [1, 1]]) = 50 ∧
    maxRelError2Du [[1, 1], [1, 1]] [[1, 1 / 2], [1, 1]] ≠
      100 * (specMaxAbsError [[1, 1], [1, 1]] [[1, 1 / 2], [1, 1]] /
        specMaxAbsExact [[1, 1 / 2], [1, 1]]) := by
  have habs : |(1 : ℚ) - 1 / 2| = 1 / 2 := by rw [abs_of_pos] <;> norm_num
  have habs2 : |(1 : ℚ) / 2| = 1 / 2 := by rw [abs_of_pos] <;> norm_num
  refine ⟨?_, ?_, ?_⟩ <;>
    norm_num [maxRelError2Du, specMaxAbsError, specMaxAbsExact, List.zip,
      List.zipWith, habs, habs2, max_def]

end HeatEq
